import Mathlib

/-!
Verification development for the Meta-Imager image-metadata pipeline.

The JavaScript sources are embedded shallowly:
strings are `List Char`, JavaScript objects with string keys are
association lists with in-place update (`objInsert`), and the
`while` loop of the keyword matcher is modelled with explicit fuel
(`none` marks a run that exhausts every amount of fuel, i.e. a
divergent JS loop).
-/

/-- Strings of the JavaScript source, modelled as lists of characters. -/
abbrev Str := List Char

/-- Convert a Lean string literal to the `Str` model. -/
def chars (s : String) : Str := s.toList

/-- The whitespace class of JavaScript regular expressions (ASCII part);
`\s` in `/\s+/` and the characters removed by `String.prototype.trim`. -/
def jsWs (c : Char) : Bool :=
  c = ' ' || c = '\t' || c = '\n' || c = '\r' || c = '\x0b' || c = '\x0c'

/-- `String.prototype.toLowerCase` (ASCII behaviour). -/
def toLowerStr (s : Str) : Str := s.map Char.toLower

/-- `String.prototype.trim`: drop leading and trailing whitespace. -/
def trimStr (s : Str) : Str :=
  ((s.dropWhile jsWs).reverse.dropWhile jsWs).reverse

/-- `replace(/\s+/g, "")`: remove every whitespace character. -/
def stripWs (s : Str) : Str := s.filter (fun c => !jsWs c)

/-- Helper for `collapseWs`: `pw` records whether the previous character
was part of a whitespace run already emitted as a single space. -/
def collapseWsAux : Bool → Str → Str
  | _, [] => []
  | pw, c :: cs =>
    if jsWs c then
      if pw then collapseWsAux true cs else ' ' :: collapseWsAux true cs
    else c :: collapseWsAux false cs

/-- `replace(/\s+/g, " ")`: collapse each maximal whitespace run to one space. -/
def collapseWs (s : Str) : Str := collapseWsAux false s

/-- Split a string at every occurrence of one character, keeping empty
pieces (the list-of-pieces view JavaScript `split` produces). -/
def splitOnChar (sep : Char) : Str → List Str
  | [] => [[]]
  | c :: cs =>
    if c = sep then [] :: splitOnChar sep cs
    else (c :: (splitOnChar sep cs).headI) :: (splitOnChar sep cs).tail

/-- `text.split(",")`. -/
def splitOnComma (s : Str) : List Str := splitOnChar ',' s

/-- `text.split(/\s+/)`: pieces between maximal whitespace runs; a leading
(trailing) run contributes a leading (trailing) empty piece.  Collapsing
every whitespace run to a single space and splitting on that space gives
exactly the JavaScript behaviour. -/
def wordsOf (s : Str) : List Str := splitOnChar ' ' (collapseWs s)

/-- `words.slice(1).join(" ")` applied to `wordsOf s`: drop the first
whitespace-delimited word of `s`. -/
def dropFirstWord (s : Str) : Str :=
  List.intercalate [' '] (wordsOf s).tail

/-- `text.indexOf(pat)` (as `some` index, `none` for `-1`). -/
def indexOfSub (s pat : Str) : Option Nat :=
  if pat.isPrefixOf s then some 0
  else
    match s with
    | [] => none
    | _ :: rest => (indexOfSub rest pat).map (· + 1)

/-- A value in the keywords map of `src/keywords.js`: either one label or
an array of labels (`keywordMatcher.js` handles both). -/
inductive KwVal where
  | str (label : String)
  | arr (labels : List String)
deriving DecidableEq, Repr

/-- The label strings carried by a keywords-map value. -/
def KwVal.labels : KwVal → List String
  | .str l => [l]
  | .arr ls => ls

/-- JavaScript `acc[k] = v` on an object modelled as an association list:
an existing key keeps its position and gets the new value, a new key is
appended (JS string keys enumerate in insertion order). -/
def objInsert (m : List (Str × KwVal)) (k : Str) (v : KwVal) : List (Str × KwVal) :=
  match m with
  | [] => [(k, v)]
  | (k', v') :: rest =>
    if k' = k then (k, v) :: rest else (k', v') :: objInsert rest k v

/-- First-match association lookup, JavaScript `m[k]` for the maps built
by `objInsert` (whose keys are unique). -/
def mapLookup (m : List (Str × KwVal)) (k : Str) : Option KwVal :=
  match m with
  | [] => none
  | (k', v') :: rest => if k' = k then some v' else mapLookup rest k

/-- The keys of an association-list object, in enumeration order. -/
def objKeys (m : List (Str × KwVal)) : List Str := m.map Prod.fst

/-- The normalised key of a dictionary term:
`key.toLowerCase().trim()` (keywordMatcher.js line 15). -/
def normKey (t : Str) : Str := trimStr (toLowerStr t)

/-- The space-stripped key of a dictionary term:
`normalizedKey.replace(/\s+/g, "")` (keywordMatcher.js line 16). -/
def spaceKey (t : Str) : Str := stripWs (normKey t)

/-- One step of the `reduce` in `normalizeKeywordsMap`
(keywordMatcher.js lines 13-21): `acc[normalizedKey] = value;
acc[keyWithoutSpaces] = value`. -/
def normStep (acc : List (Str × KwVal)) (p : Str × KwVal) : List (Str × KwVal) :=
  objInsert (objInsert acc (normKey p.1) p.2) (spaceKey p.1) p.2

/-- `KeywordMatcher.normalizeKeywordsMap`: index every term twice, under
its normalised key and its space-stripped key; later entries overwrite
earlier values for a colliding key. -/
def normalizeKeywordsMap (entries : List (Str × KwVal)) : List (Str × KwVal) :=
  entries.foldl normStep []

/-- Stable insertion used by `sortByLenDesc`: `x` goes after every element
at least as long as itself, matching the stable JS
`sort((a, b) => b.length - a.length)`. -/
def insDesc (x : Str) : List Str → List Str
  | [] => [x]
  | y :: ys => if x.length ≤ y.length then y :: insDesc x ys else x :: y :: ys

/-- Stable sort by character length, longest first
(`Object.keys(...).sort((a, b) => b.length - a.length)`). -/
def sortByLenDesc (l : List Str) : List Str :=
  l.foldl (fun acc x => insDesc x acc) []

/-- The `KeywordMatcher` instance state: the normalised keywords map and
the keys sorted longest-first (constructor, keywordMatcher.js lines 4-10). -/
structure KeywordMatcher where
  normalizedKeywordsMap : List (Str × KwVal)
  sortedKeywords : List Str
deriving Repr

/-- `new KeywordMatcher(keywordsMap)`. -/
def mkKeywordMatcher (entries : List (Str × KwVal)) : KeywordMatcher :=
  let m := normalizeKeywordsMap entries
  { normalizedKeywordsMap := m, sortedKeywords := sortByLenDesc (objKeys m) }

namespace KeywordMatcher

/-- `KeywordMatcher.cleanTerm` (keywordMatcher.js lines 24-34):
remove from the first colon up to the next comma or the end
(`replace(/:[^,]*/, "")`, first occurrence only), remove parentheses,
trim, lowercase, collapse whitespace runs to single spaces. -/
def cleanTerm (t : Str) : Str :=
  let c1 := removeColonPart t
  let c2 := c1.filter (fun c => c ≠ '(' && c ≠ ')')
  collapseWs (toLowerStr (trimStr c2))
where
  /-- `replace(/:[^,]*/, "")`: drop the first colon and the non-comma
  characters after it. -/
  removeColonPart : Str → Str
    | [] => []
    | c :: cs =>
      if c = ':' then cs.dropWhile (fun d => d ≠ ',')
      else c :: removeColonPart cs

/-- `KeywordMatcher.findMatchAtStart` (keywordMatcher.js lines 36-67).
Pass 1 tests each sorted keyword as a literal beginning of the lowercased
text; pass 2 strips all whitespace from both sides and repeats, computing
the consumed length as `normalizedText.indexOf(keyword) + keyword.length`
(with JS `indexOf` returning `-1` on a miss). -/
def findMatchAtStart (km : KeywordMatcher) (text : Str) : Option (KwVal × Str) :=
  let ntext := toLowerStr text
  match km.sortedKeywords.find? (fun kw => kw.isPrefixOf ntext) with
  | some kw =>
    some ((mapLookup km.normalizedKeywordsMap kw).getD (.arr []),
          trimStr (ntext.drop kw.length))
  | none =>
    let tns := stripWs ntext
    match km.sortedKeywords.find? (fun kw => (stripWs kw).isPrefixOf tns) with
    | some kw =>
      let originalLength :=
        match indexOfSub ntext kw with
        | some i => i + kw.length
        | none => kw.length - 1
      some ((mapLookup km.normalizedKeywordsMap kw).getD (.arr []),
            trimStr (ntext.drop originalLength))
    | none => none

/-- JavaScript `Set.prototype.add`: append if not already present
(insertion order preserved). -/
def addUnique (acc : List String) (s : String) : List String :=
  if s ∈ acc then acc else acc ++ [s]

/-- Add the label(s) of a matched value to the result set
(keywordMatcher.js lines 83-88). -/
def addLabels (acc : List String) (v : KwVal) : List String :=
  match v with
  | .str s => addUnique acc s
  | .arr l => l.foldl addUnique acc

/-- The `while (remainingText)` loop of `findKeywordsInPhrase`
(keywordMatcher.js lines 75-91), with explicit fuel; `none` means the
fuel ran out with text remaining, i.e. the JS loop did not get that far. -/
def matchLoop (km : KeywordMatcher) : Nat → Str → List String → Option (List String)
  | _, [], acc => some acc
  | 0, _ :: _, _ => none
  | fuel + 1, text, acc =>
    match km.findMatchAtStart text with
    | none => matchLoop km fuel (dropFirstWord text) acc
    | some (v, rest) => matchLoop km fuel rest (addLabels acc v)

/-- `KeywordMatcher.findKeywordsInPhrase` (keywordMatcher.js lines 69-94),
run with fuel `length + 1`, which suffices whenever the JS loop
terminates (each iteration shortens the text by at least one character
when no dictionary key is empty). -/
def findKeywordsInPhrase (km : KeywordMatcher) (phrase : Str) : Option (List String) :=
  let start := cleanTerm phrase
  matchLoop km (start.length + 1) start []

/-- `KeywordMatcher.findKeywords` (keywordMatcher.js lines 96-109):
split on commas, match each phrase, union the results. -/
def findKeywords (km : KeywordMatcher) (text : Str) : Option (List String) :=
  (splitOnComma text).foldl
    (fun acc phrase =>
      match acc, km.findKeywordsInPhrase phrase with
      | some a, some m => some (m.foldl addUnique a)
      | _, _ => none)
    (some [])

end KeywordMatcher

/-! ## JSON values and `JSON.parse`

`jsonPromptStrategy.js` calls the JavaScript builtin `JSON.parse`.  The
builtin is external to the repository, so it is modelled here: a value
type and a fuel-indexed recursive-descent parser.  The model is lenient
about number syntax (no claim concerns numbers) and decodes the standard
escapes.  Parsed objects keep their fields in textual order. -/

inductive Json where
  | null
  | bool (b : Bool)
  | num (raw : String)
  | str (s : String)
  | arr (elems : List Json)
  | obj (fields : List (String × Json))
deriving Repr

/-- JSON insignificant whitespace. -/
def skipJsonWs (s : Str) : Str :=
  s.dropWhile (fun c => c = ' ' || c = '\t' || c = '\n' || c = '\r')

/-- Decode a single-character escape (`\n`, `\t`, ...; identity covers
`\"`, `\\` and `\/`). -/
def escMap (e : Char) : Char :=
  if e = 'n' then '\n'
  else if e = 't' then '\t'
  else if e = 'r' then '\r'
  else if e = 'b' then '\x08'
  else if e = 'f' then '\x0c'
  else e

/-- Is the character a hexadecimal digit? -/
def isHexDigitCh (c : Char) : Bool :=
  (('0' ≤ c ∧ c ≤ '9') ∨ ('a' ≤ c ∧ c ≤ 'f') ∨ ('A' ≤ c ∧ c ≤ 'F') : Prop)

/-- Value of a hexadecimal digit. -/
def hexVal (c : Char) : Nat :=
  if '0' ≤ c ∧ c ≤ '9' then c.toNat - 48
  else if 'a' ≤ c ∧ c ≤ 'f' then c.toNat - 87
  else if 'A' ≤ c ∧ c ≤ 'F' then c.toNat - 55
  else 0

/-- Parse the body of a JSON string (the opening quote already consumed),
accumulating decoded characters in reverse. -/
def parseStrBody (acc : Str) : Str → Option (String × Str)
  | [] => none
  | c :: rest =>
    if c = '"' then some (String.mk acc.reverse, rest)
    else if c = '\\' then
      match rest with
      | [] => none
      | e :: rest2 =>
        if e = 'u' then
          match rest2 with
          | a :: b :: c2 :: d :: rest3 =>
            if isHexDigitCh a && isHexDigitCh b && isHexDigitCh c2 && isHexDigitCh d then
              parseStrBody
                (Char.ofNat (4096 * hexVal a + 256 * hexVal b + 16 * hexVal c2 + hexVal d)
                  :: acc) rest3
            else none
          | _ => none
        else parseStrBody (escMap e :: acc) rest2
    else parseStrBody (c :: acc) rest

/-- Characters that may appear in a (leniently modelled) JSON number. -/
def isNumChar (c : Char) : Bool :=
  c.isDigit || c = '-' || c = '+' || c = '.' || c = 'e' || c = 'E'

/-- JavaScript-object field update used while parsing: a later duplicate
key keeps the first occurrence's position but takes the later value. -/
def objAddFront (k : String) (v : Json) (fs : List (String × Json)) :
    List (String × Json) :=
  match fs.find? (fun q => q.1 = k) with
  | some q => (k, q.2) :: fs.filter (fun q' => q'.1 ≠ k)
  | none => (k, v) :: fs

/-- Fuel-indexed JSON value parser; returns the value and the unconsumed
input.  Member lists and element lists are parsed by re-entering the
parser on the remaining input with the opening bracket restored. -/
def parseJsonF : Nat → Str → Option (Json × Str)
  | 0, _ => none
  | fuel + 1, s0 =>
    let s := skipJsonWs s0
    match s with
    | [] => none
    | c :: rest =>
      if c = '\x7b' then
        match skipJsonWs rest with
        | '\x7d' :: rest2 => some (.obj [], rest2)
        | _ =>
          match skipJsonWs rest with
          | '"' :: restK =>
            match parseStrBody [] restK with
            | none => none
            | some (k, restAfterK) =>
              match skipJsonWs restAfterK with
              | ':' :: restV =>
                match parseJsonF fuel restV with
                | none => none
                | some (v, restAfterV) =>
                  match skipJsonWs restAfterV with
                  | ',' :: restMore =>
                    match parseJsonF fuel ('\x7b' :: restMore) with
                    | some (.obj fs, restEnd) => some (.obj (objAddFront k v fs), restEnd)
                    | _ => none
                  | '\x7d' :: restEnd => some (.obj [(k, v)], restEnd)
                  | _ => none
              | _ => none
          | _ => none
      else if c = '[' then
        match skipJsonWs rest with
        | ']' :: rest2 => some (.arr [], rest2)
        | _ =>
          match parseJsonF fuel rest with
          | none => none
          | some (v, restAfterV) =>
            match skipJsonWs restAfterV with
            | ',' :: restMore =>
              match parseJsonF fuel ('[' :: restMore) with
              | some (.arr xs, restEnd) => some (.arr (v :: xs), restEnd)
              | _ => none
            | ']' :: restEnd => some (.arr [v], restEnd)
            | _ => none
      else if c = '"' then
        (parseStrBody [] rest).map (fun p => (.str p.1, p.2))
      else if (chars "true").isPrefixOf s then some (.bool true, s.drop 4)
      else if (chars "false").isPrefixOf s then some (.bool false, s.drop 5)
      else if (chars "null").isPrefixOf s then some (.null, s.drop 4)
      else
        let raw := s.takeWhile isNumChar
        if raw = [] then none
        else if (raw.headI).isDigit || raw.headI = '-' then
          some (.num (String.mk raw), s.drop raw.length)
        else none

/-- Model of the `JSON.parse` builtin: parse one value, require only
whitespace after it; `none` models a thrown `SyntaxError`. -/
def parseJson (s : Str) : Option Json :=
  match parseJsonF (s.length + 1) s with
  | some (j, rest) => if skipJsonWs rest = [] then some j else none
  | none => none

/-! ## Prompt extraction -/

/-- One entry of the `metadata.comments` array produced by the image
reader: a `{keyword, text}` pair. -/
structure MetaComment where
  keyword : String
  text : Str
deriving DecidableEq, Repr

/-- The part of a `sharp` metadata record the pipeline reads. -/
structure Metadata where
  comments : Option (List MetaComment)
deriving DecidableEq, Repr

/-- One extracted prompt (`{entryKey, originalText}`). -/
structure PromptEntry where
  entryKey : String
  originalText : Str
deriving DecidableEq, Repr

/-- Result of `PromptExtractionService.extractPrompts`:
the winning strategy's identifier and its prompts. -/
structure ExtractionResult where
  strategy : String
  prompts : List PromptEntry
deriving DecidableEq, Repr

/-- A strategy as the service sees it: `extractPrompt(metadata)` returning
prompts or `null` (`Option`), with `Except.error` modelling a thrown
exception. -/
abbrev StrategyFn := Metadata → Except Unit (Option (List PromptEntry))

/-- The literal marker splitting positive and negative prompt text
(parametersStrategy.js line 76). -/
def negMarker : Str := chars "Negative prompt:"

/-- The positive prompt of a parameters comment (parametersStrategy.js
lines 76-80): the text before the first occurrence of the marker, or the
whole text when the marker is absent, trimmed. -/
def positivePromptOf (c : MetaComment) : Str :=
  match indexOfSub c.text negMarker with
  | some i => trimStr (c.text.take i)
  | none => trimStr c.text

/-- `ParametersStrategy.extractPrompt` (parametersStrategy.js lines 63-93):
find the first comment keyed `"parameters"`, keep the text before the
marker (all of it if absent), trim, and fail on empty. -/
def parametersStrategy : StrategyFn := fun md =>
  match md.comments with
  | none => .ok none
  | some cs =>
    match cs.find? (fun c => c.keyword = "parameters") with
    | none => .ok none
    | some c =>
      let positivePrompt := positivePromptOf c
      if positivePrompt = [] then .ok none
      else .ok (some [⟨"primary", positivePrompt⟩])

/-- Member access `j.k` on a parsed JSON value (non-objects give
`undefined`). -/
def getMember (j : Json) (k : String) : Option Json :=
  match j with
  | .obj fs => (fs.find? (fun q => q.1 = k)).map (fun q => q.2)
  | _ => none

/-- `Object.entries(promptData)` on a parsed JSON value; `none` models
the `TypeError` thrown on `null` (caught by the strategy's own catch). -/
def jsObjEntries : Json → Option (List (String × Json))
  | .null => none
  | .obj fs => some fs
  | .arr xs => some (((List.range xs.length).zip xs).map (fun p => (toString p.1, p.2)))
  | _ => some []

/-- `JsonPromptStrategy.extractPrompt` (jsonPromptStrategy.js lines 9-50):
find the first comment keyed `"prompt"`, parse its text as JSON (parse
failure is caught and returned as `null`), and emit one entry per member
whose `inputs.populated_text` is a non-empty string (the truthiness test
of line 26; in this metadata format the field is always a string). -/
def jsonPromptStrategy : StrategyFn := fun md =>
  match md.comments with
  | none => .ok none
  | some cs =>
    match cs.find? (fun c => c.keyword = "prompt") with
    | none => .ok none
    | some c =>
      match parseJson c.text with
      | none => .ok none
      | some j =>
        match jsObjEntries j with
        | none => .ok none
        | some entries =>
          let prompts := entries.filterMap (fun p =>
            match (getMember p.2 "inputs").bind (fun inp => getMember inp "populated_text") with
            | some (.str s) => if s ≠ "" then some (⟨p.1, chars s⟩ : PromptEntry) else none
            | _ => none)
          if prompts = [] then .ok none else .ok (some prompts)

/-- `PromptExtractionService.extractPrompts` (promptExtractionService.js
lines 10-41) over an arbitrary ordered strategy list: run each strategy
in order, treat a thrown error as a non-match, return the first truthy
result tagged with the strategy's identifier, `null` when none matched. -/
def extractPromptsGen : List (String × StrategyFn) → Metadata → Option ExtractionResult
  | [], _ => none
  | (id, f) :: rest, md =>
    match f md with
    | .error _ => extractPromptsGen rest md
    | .ok none => extractPromptsGen rest md
    | .ok (some ps) => some ⟨id, ps⟩

/-- The strategy list of the pipeline, in constructor order
(fileProcessor.js line 36): `[ParametersStrategy, JsonPromptStrategy]`. -/
def strategies : List (String × StrategyFn) :=
  [("parameters", parametersStrategy), ("jsonPrompt", jsonPromptStrategy)]

/-- The pipeline's `promptExtractor.extractPrompts(metadata)`. -/
def extractPrompts (md : Metadata) : Option ExtractionResult :=
  extractPromptsGen strategies md

/-! ## The per-file pipeline (`processFile`, fileProcessor.js lines 40-179)

File-system effects are modelled by an explicit state: the set of paths
that exist and the description/keywords metadata written per path.  Each
fallible external call (sharp, fs, exiftool) succeeds or throws according
to an oracle; `Except.error` inside the body models a thrown exception,
resolved by the function's own try/catch.  An overall `none` result
models a run whose keyword-matching loop diverges (and so never
returns). -/

structure FS where
  files : List Str
  fileMeta : List (Str × (Str × List String))
deriving DecidableEq, Repr

/-- Create (or overwrite) a file: the path exists afterwards. -/
def FS.addFile (fs : FS) (p : Str) : FS :=
  if p ∈ fs.files then fs else { fs with files := p :: fs.files }

/-- `fs.unlink`: the path no longer exists; removing an absent path is a
no-op (the `ENOENT` branch of `tempFileService.cleanup`). -/
def FS.removeFile (fs : FS) (p : Str) : FS :=
  { fs with files := fs.files.filter (fun q => q ≠ p) }

/-- Record the metadata fields `exiftool.write` sets on a path. -/
def FS.setMeta (fs : FS) (p : Str) (m : Str × List String) : FS :=
  { fs with fileMeta := (p, m) :: fs.fileMeta }

/-- The last metadata written to a path. -/
def FS.lookupMeta (fs : FS) (p : Str) : Option (Str × List String) :=
  (fs.fileMeta.find? (fun q => q.1 = p)).map (fun q => q.2)

/-- Outcomes of the external calls one `processFile` job performs, plus
the two collision-resistant temp paths `getTempFilePath` hands out. -/
structure PipeOracle where
  ensureTempOk : Bool
  metadataResult : Except Unit Metadata
  mkdirOk : Bool
  tempBase : Str
  tempWm : Str
  toFileOk : Bool
  watermarkOk : Bool
  copyOk : Bool
  exifOk : Bool
  backupCreated : Bool
deriving Repr

/-- `path.basename`. -/
def baseName (p : Str) : Str := (p.reverse.takeWhile (fun c => c ≠ '/')).reverse

/-- `path.join(dir, name)`. -/
def pathJoin (d f : Str) : Str := d ++ '/' :: f

/-- `filename.toLowerCase().endsWith(".png")` (fileProcessor.js line 53). -/
def isPngName (f : Str) : Bool := (chars ".png").isSuffixOf (toLowerStr f)

/-- `outputPath.replace(/(\.[^.]+)$/, "_original$1")`
(tempFileService.js line 49): insert `_original` before the final
dot-extension when there is one. -/
def backupName (p : Str) : Str :=
  let ext := p.reverse.takeWhile (fun c => c ≠ '.')
  if ext.length = 0 ∨ ext.length = p.length then p
  else p.take (p.length - ext.length - 1) ++ chars "_original" ++ '.' :: ext.reverse

/-- The keyword-matching loop over all extracted prompts
(fileProcessor.js lines 86-89): concatenate each prompt's matches. -/
def allKeywords (km : KeywordMatcher) (prompts : List PromptEntry) : Option (List String) :=
  prompts.foldl
    (fun acc p =>
      match acc, km.findKeywords p.originalText with
      | some a, some k => some (a ++ k)
      | _, _ => none)
    (some [])

/-- `[...new Set(xs)]`: deduplicate keeping first occurrences. -/
def dedupKeep (xs : List String) : List String :=
  xs.foldl KeywordMatcher.addUnique []

/-- Lines 86-96 of fileProcessor.js: match keywords for every prompt,
deduplicate, then push the fixed watermark label when the feature is on. -/
def finalKeywords (km : KeywordMatcher) (addWatermarkCfg : Bool)
    (prompts : List PromptEntry) : Option (List String) :=
  (allKeywords km prompts).map
    (fun m =>
      let d := dedupKeep m
      if addWatermarkCfg then d ++ ["Watermark: AI"] else d)

/-- The write phase (fileProcessor.js lines 152-167): exiftool metadata
write (which may drop a `_original` backup next to the destination),
then `cleanupOriginal`. -/
def writePhase (o : PipeOracle) (outputPath : Str) (desc : Str)
    (matched : List String) (temps : List Str) (fs3 : FS) :
    Except Unit Bool × FS × List Str :=
  if !o.exifOk then (.error (), fs3, temps)
  else
    let fs4 := fs3.setMeta outputPath (desc, matched)
    let fs5 := if o.backupCreated then fs4.addFile (backupName outputPath) else fs4
    (.ok true, fs5.removeFile (backupName outputPath), temps)

/-- The `try` block of `processFile` (fileProcessor.js lines 45-167),
with the third component the job's `tempFiles` list as registered so
far.  `none`: the keyword loop diverged. -/
def processFileBody (entries : List (Str × KwVal)) (addWatermarkCfg : Bool)
    (o : PipeOracle) (filePath destDir : Str) (fs : FS) :
    Option (Except Unit Bool × FS × List Str) :=
  let km := mkKeywordMatcher entries
  if !o.ensureTempOk then some (.error (), fs, [])
  else
    let filename := baseName filePath
    if !isPngName filename then some (.ok false, fs, [])
    else
      match o.metadataResult with
      | .error _ => some (.error (), fs, [])
      | .ok md =>
        match md.comments with
        | none => some (.ok false, fs, [])
        | some _ =>
          match extractPrompts md with
          | none => some (.ok false, fs, [])
          | some er =>
            match er.prompts with
            | [] => some (.error (), fs, [])
            | p0 :: _ =>
              match finalKeywords km addWatermarkCfg er.prompts with
              | none => none
              | some matched =>
                let outputPath := pathJoin destDir filename
                if !o.mkdirOk then some (.error (), fs, [])
                else
                  let temps := [o.tempBase, o.tempWm]
                  if !o.toFileOk then some (.error (), fs, temps)
                  else
                    let fs1 := fs.addFile o.tempBase
                    if addWatermarkCfg then
                      if !o.watermarkOk then some (.error (), fs1, temps)
                      else
                        let fs2 := fs1.addFile o.tempWm
                        if !o.copyOk then some (.error (), fs2, temps)
                        else
                          some (writePhase o outputPath p0.originalText matched temps
                            (fs2.addFile outputPath))
                    else
                      if !o.copyOk then some (.error (), fs1, temps)
                      else
                        some (writePhase o outputPath p0.originalText matched temps
                          (fs1.addFile outputPath))

/-- `processFile(filePath, destOutputDir)`: the try body, resolved by the
catch handler (log and return `false`) and the `finally` block releasing
every registered temp file. -/
def processFile (entries : List (Str × KwVal)) (addWatermarkCfg : Bool)
    (o : PipeOracle) (filePath destDir : Str) (fs : FS) :
    Option (Except Unit Bool × FS × List Str) :=
  match processFileBody entries addWatermarkCfg o filePath destDir fs with
  | none => none
  | some (r, fs1, temps) =>
    let fsF := temps.foldl FS.removeFile fs1
    match r with
    | .ok b => some (.ok b, fsF, temps)
    | .error _ => some (.ok false, fsF, temps)

/-! ## Character-level facts -/

theorem char_eq_iff_toNat {c d : Char} : c = d ↔ c.toNat = d.toNat := by
  constructor
  · intro h; rw [h]
  · intro h
    apply Char.eq_of_val_eq
    apply UInt32.eq_of_toBitVec_eq
    exact BitVec.eq_of_toNat_eq h

theorem toNat_charOfNat {n : Nat} (h : n.isValidChar) : (Char.ofNat n).toNat = n := by
  rw [Char.ofNat, dif_pos h]
  simp [Char.ofNatAux, Char.toNat, UInt32.toNat]

theorem jsWs_iff {c : Char} :
    jsWs c = true ↔
      c.toNat = 32 ∨ c.toNat = 9 ∨ c.toNat = 10 ∨ c.toNat = 13 ∨ c.toNat = 11 ∨
        c.toNat = 12 := by
  have hsp : (' ' : Char).toNat = 32 := rfl
  have hta : ('\t' : Char).toNat = 9 := rfl
  have hnl : ('\n' : Char).toNat = 10 := rfl
  have hcr : ('\r' : Char).toNat = 13 := rfl
  have hvt : ('\x0b' : Char).toNat = 11 := rfl
  have hff : ('\x0c' : Char).toNat = 12 := rfl
  simp only [jsWs, Bool.or_eq_true, decide_eq_true_eq, char_eq_iff_toNat,
    hsp, hta, hnl, hcr, hvt, hff]
  tauto

theorem toLower_of_upper {c : Char} (h : 65 ≤ c.toNat ∧ c.toNat ≤ 90) :
    (Char.toLower c).toNat = c.toNat + 32 := by
  have hvalid : (c.toNat + 32).isValidChar := Or.inl (by omega)
  rw [Char.toLower, if_pos h]
  exact toNat_charOfNat hvalid

theorem toLower_of_not_upper {c : Char} (h : ¬(65 ≤ c.toNat ∧ c.toNat ≤ 90)) :
    Char.toLower c = c := by
  rw [Char.toLower, if_neg h]

theorem jsWs_toLower (c : Char) : jsWs (Char.toLower c) = jsWs c := by
  by_cases h : 65 ≤ c.toNat ∧ c.toNat ≤ 90
  · have h1 := toLower_of_upper h
    have h2 : jsWs (Char.toLower c) = false := by
      rw [Bool.eq_false_iff]
      intro hw
      rw [jsWs_iff] at hw
      omega
    have h3 : jsWs c = false := by
      rw [Bool.eq_false_iff]
      intro hw
      rw [jsWs_iff] at hw
      omega
    rw [h2, h3]
  · rw [toLower_of_not_upper h]

theorem toLower_idem (c : Char) : Char.toLower (Char.toLower c) = Char.toLower c := by
  by_cases h : 65 ≤ c.toNat ∧ c.toNat ≤ 90
  · have h1 := toLower_of_upper h
    apply toLower_of_not_upper
    omega
  · rw [toLower_of_not_upper h]
    exact toLower_of_not_upper h

/-! ## String-primitive facts -/

theorem length_toLowerStr (s : Str) : (toLowerStr s).length = s.length :=
  List.length_map s Char.toLower

theorem toLowerStr_idem (s : Str) : toLowerStr (toLowerStr s) = toLowerStr s := by
  simp only [toLowerStr, List.map_map]
  exact List.map_congr_left (fun c _ => toLower_idem c)

theorem dropWhile_jsWs_toLowerStr (s : Str) :
    (toLowerStr s).dropWhile jsWs = toLowerStr (s.dropWhile jsWs) := by
  rw [toLowerStr, List.dropWhile_map]
  have : (jsWs ∘ Char.toLower) = jsWs := funext (fun c => jsWs_toLower c)
  rw [this]
  rfl

theorem toLowerStr_trimStr (s : Str) :
    toLowerStr (trimStr s) = trimStr (toLowerStr s) := by
  have hws : (jsWs ∘ Char.toLower) = jsWs := funext jsWs_toLower
  simp only [trimStr, toLowerStr, List.dropWhile_map, hws, ← List.map_reverse]

theorem toLowerStr_normKey (t : Str) : toLowerStr (normKey t) = normKey t := by
  rw [normKey, toLowerStr_trimStr, toLowerStr_idem]

theorem stripWs_toLowerStr (s : Str) :
    stripWs (toLowerStr s) = toLowerStr (stripWs s) := by
  rw [stripWs, toLowerStr, List.filter_map]
  have : ((fun c => !jsWs c) ∘ Char.toLower) = (fun c => !jsWs c) :=
    funext (fun c => by simp [jsWs_toLower c])
  rw [this]
  rfl

theorem toLowerStr_spaceKey (t : Str) : toLowerStr (spaceKey t) = spaceKey t := by
  rw [spaceKey, ← stripWs_toLowerStr, toLowerStr_normKey]

theorem length_trimStr_le (s : Str) : (trimStr s).length ≤ s.length := by
  simp only [trimStr, List.length_reverse]
  calc ((s.dropWhile jsWs).reverse.dropWhile jsWs).length
      ≤ (s.dropWhile jsWs).reverse.length := (List.dropWhile_sublist _).length_le
    _ = (s.dropWhile jsWs).length := List.length_reverse _
    _ ≤ s.length := (List.dropWhile_sublist _).length_le

theorem length_trimStr_lt_of_head_ws {c : Char} {s : Str} (h : jsWs c = true) :
    (trimStr (c :: s)).length < (c :: s).length := by
  simp only [trimStr, List.length_reverse, List.dropWhile_cons, h, if_pos]
  calc ((s.dropWhile jsWs).reverse.dropWhile jsWs).length
      ≤ (s.dropWhile jsWs).reverse.length := (List.dropWhile_sublist _).length_le
    _ = (s.dropWhile jsWs).length := List.length_reverse _
    _ ≤ s.length := (List.dropWhile_sublist _).length_le
    _ < (c :: s).length := by simp

theorem head?_trimStr_not_ws {s : Str} {c : Char} (h : (trimStr s).head? = some c) :
    jsWs c = false := by
  have h1 : ((s.dropWhile jsWs).reverse.dropWhile jsWs).getLast? = some c := by
    rw [← List.head?_reverse]
    exact h
  have hsuffix := List.dropWhile_suffix (l := (s.dropWhile jsWs).reverse) jsWs
  obtain ⟨pre, hpre⟩ := hsuffix
  have h2 : (s.dropWhile jsWs).reverse.getLast? = some c := by
    rw [← hpre, List.getLast?_append, h1]
    rfl
  rw [List.getLast?_reverse] at h2
  have h3 := List.head?_dropWhile_not jsWs s
  rw [h2] at h3
  exact h3

theorem mem_stripWs_not_ws {s : Str} {c : Char} (h : c ∈ stripWs s) : jsWs c = false := by
  have := List.of_mem_filter h
  simpa using this

theorem stripWs_cons_of_not_ws {c : Char} {s : Str} (h : jsWs c = false) :
    stripWs (c :: s) = c :: stripWs s := by
  simp [stripWs, List.filter_cons, h]

/-! ## Facts about the keywords-map construction -/

theorem mapLookup_objInsert (m : List (Str × KwVal)) (k : Str) (v : KwVal) (q : Str) :
    mapLookup (objInsert m k v) q = if k = q then some v else mapLookup m q := by
  induction m with
  | nil => simp [objInsert, mapLookup]
  | cons p rest ih =>
    obtain ⟨k', v'⟩ := p
    by_cases hk : k' = k
    · subst hk
      by_cases hq : k' = q <;> simp [objInsert, mapLookup, hq]
    · by_cases hq : k' = q
      · subst hq
        have : ¬(k = k') := fun h => hk h.symm
        simp [objInsert, mapLookup, hk, this]
      · simp [objInsert, mapLookup, hk, hq, ih]

theorem mem_objKeys_objInsert {m : List (Str × KwVal)} {k : Str} {v : KwVal} {q : Str} :
    q ∈ objKeys (objInsert m k v) ↔ q ∈ objKeys m ∨ q = k := by
  induction m with
  | nil => simp [objInsert, objKeys]
  | cons p rest ih =>
    obtain ⟨k', v'⟩ := p
    simp only [objKeys] at ih
    by_cases hk : k' = k
    · subst hk
      simp only [objKeys, objInsert, if_pos, List.map_cons, List.mem_cons]
      tauto
    · simp only [objKeys, objInsert, if_neg hk, List.map_cons, List.mem_cons, ih]
      tauto

theorem mapLookup_normStep (acc : List (Str × KwVal)) (p : Str × KwVal) (q : Str) :
    mapLookup (normStep acc p) q =
      if spaceKey p.1 = q then some p.2
      else if normKey p.1 = q then some p.2
      else mapLookup acc q := by
  rw [normStep, mapLookup_objInsert, mapLookup_objInsert]

theorem mapLookup_foldl_untouched {l : List (Str × KwVal)} {q : Str}
    (h : ∀ p ∈ l, normKey p.1 ≠ q ∧ spaceKey p.1 ≠ q) (acc : List (Str × KwVal)) :
    mapLookup (l.foldl normStep acc) q = mapLookup acc q := by
  induction l generalizing acc with
  | nil => rfl
  | cons p rest ih =>
    rw [List.foldl_cons, ih (fun r hr => h r (List.mem_cons_of_mem _ hr))]
    rw [mapLookup_normStep]
    have h1 := h p (List.mem_cons_self _ _)
    rw [if_neg h1.2, if_neg h1.1]

theorem mem_objKeys_normStep_left {acc : List (Str × KwVal)} {q : Str}
    (p : Str × KwVal) (h : q ∈ objKeys acc) : q ∈ objKeys (normStep acc p) := by
  rw [normStep]
  exact mem_objKeys_objInsert.mpr (Or.inl (mem_objKeys_objInsert.mpr (Or.inl h)))

theorem mem_objKeys_foldl_left {l : List (Str × KwVal)} {q : Str}
    (acc : List (Str × KwVal)) (h : q ∈ objKeys acc) :
    q ∈ objKeys (l.foldl normStep acc) := by
  induction l generalizing acc with
  | nil => exact h
  | cons p rest ih => exact ih _ (mem_objKeys_normStep_left p h)

theorem normKey_mem_objKeys_normStep (acc : List (Str × KwVal)) (p : Str × KwVal) :
    normKey p.1 ∈ objKeys (normStep acc p) := by
  rw [normStep]
  exact mem_objKeys_objInsert.mpr (Or.inl (mem_objKeys_objInsert.mpr (Or.inr rfl)))

theorem spaceKey_mem_objKeys_normStep (acc : List (Str × KwVal)) (p : Str × KwVal) :
    spaceKey p.1 ∈ objKeys (normStep acc p) := by
  rw [normStep]
  exact mem_objKeys_objInsert.mpr (Or.inr rfl)

theorem keys_mem_of_entry {entries : List (Str × KwVal)} {t : Str} {v : KwVal}
    (h : (t, v) ∈ entries) :
    normKey t ∈ objKeys (normalizeKeywordsMap entries) ∧
      spaceKey t ∈ objKeys (normalizeKeywordsMap entries) := by
  obtain ⟨l1, l2, rfl⟩ := List.append_of_mem h
  rw [normalizeKeywordsMap, List.foldl_append, List.foldl_cons]
  constructor
  · exact mem_objKeys_foldl_left _ (normKey_mem_objKeys_normStep _ _)
  · exact mem_objKeys_foldl_left _ (spaceKey_mem_objKeys_normStep _ _)

theorem keys_origin {entries : List (Str × KwVal)} {q : Str}
    (h : q ∈ objKeys (normalizeKeywordsMap entries)) :
    ∃ p ∈ entries, q = normKey p.1 ∨ q = spaceKey p.1 := by
  rw [normalizeKeywordsMap] at h
  suffices haux : ∀ (l : List (Str × KwVal)) (acc : List (Str × KwVal)),
      q ∈ objKeys (l.foldl normStep acc) →
      q ∈ objKeys acc ∨ ∃ p ∈ l, q = normKey p.1 ∨ q = spaceKey p.1 by
    rcases haux entries [] h with h1 | h1
    · simp [objKeys] at h1
    · exact h1
  intro l
  induction l with
  | nil => exact fun acc h1 => Or.inl h1
  | cons p rest ih =>
    intro acc h1
    rw [List.foldl_cons] at h1
    rcases ih _ h1 with h2 | h2
    · rw [normStep] at h2
      rcases mem_objKeys_objInsert.mp h2 with h3 | h3
      · rcases mem_objKeys_objInsert.mp h3 with h4 | h4
        · exact Or.inl h4
        · exact Or.inr ⟨p, List.mem_cons_self _ _, Or.inl h4⟩
      · exact Or.inr ⟨p, List.mem_cons_self _ _, Or.inr h3⟩
    · obtain ⟨r, hr, hq⟩ := h2
      exact Or.inr ⟨r, List.mem_cons_of_mem _ hr, hq⟩

theorem values_origin {entries : List (Str × KwVal)} {q : Str} {v : KwVal}
    (h : mapLookup (normalizeKeywordsMap entries) q = some v) :
    ∃ p ∈ entries, p.2 = v := by
  rw [normalizeKeywordsMap] at h
  suffices haux : ∀ (l : List (Str × KwVal)) (acc : List (Str × KwVal)),
      mapLookup (l.foldl normStep acc) q = some v →
      mapLookup acc q = some v ∨ ∃ p ∈ l, p.2 = v by
    rcases haux entries [] h with h1 | h1
    · simp [mapLookup] at h1
    · exact h1
  intro l
  induction l with
  | nil => exact fun acc h1 => Or.inl h1
  | cons p rest ih =>
    intro acc h1
    rw [List.foldl_cons] at h1
    rcases ih _ h1 with h2 | h2
    · rw [mapLookup_normStep] at h2
      split at h2
      · exact Or.inr ⟨p, List.mem_cons_self _ _, Option.some_inj.mp h2⟩
      · split at h2
        · exact Or.inr ⟨p, List.mem_cons_self _ _, Option.some_inj.mp h2⟩
        · exact Or.inl h2
    · obtain ⟨r, hr, hv⟩ := h2
      exact Or.inr ⟨r, List.mem_cons_of_mem _ hr, hv⟩

theorem mapLookup_isSome_of_mem_keys {m : List (Str × KwVal)} {q : Str}
    (h : q ∈ objKeys m) : ∃ v, mapLookup m q = some v := by
  induction m with
  | nil => simp [objKeys] at h
  | cons p rest ih =>
    obtain ⟨k', v'⟩ := p
    by_cases hq : k' = q
    · exact ⟨v', by simp [mapLookup, hq]⟩
    · rcases List.mem_cons.mp h with h1 | h1
      · exact absurd h1.symm hq
      · obtain ⟨v, hv⟩ := ih h1
        exact ⟨v, by simp [mapLookup, hq, hv]⟩

/-! ## Facts about the longest-first key ordering -/

theorem insDesc_perm (x : Str) (l : List Str) : List.Perm (insDesc x l) (x :: l) := by
  induction l with
  | nil => rfl
  | cons y ys ih =>
    rw [insDesc]
    split
    · exact ((ih.cons y).trans (List.Perm.swap x y ys))
    · rfl

theorem insDesc_pairwise {l : List Str} (x : Str)
    (h : l.Pairwise (fun a b => b.length ≤ a.length)) :
    (insDesc x l).Pairwise (fun a b => b.length ≤ a.length) := by
  induction l with
  | nil => simp [insDesc]
  | cons y ys ih =>
    rw [List.pairwise_cons] at h
    rw [insDesc]
    split
    · rename_i hxy
      rw [List.pairwise_cons]
      refine ⟨?_, ih h.2⟩
      intro a ha
      rcases List.mem_cons.mp ((insDesc_perm x ys).mem_iff.mp ha) with h1 | h1
      · subst h1; exact hxy
      · exact h.1 a h1
    · rename_i hxy
      rw [List.pairwise_cons]
      refine ⟨?_, List.pairwise_cons.mpr h⟩
      intro a ha
      rcases List.mem_cons.mp ha with h1 | h1
      · subst h1; omega
      · exact Nat.le_trans (h.1 a h1) (by omega)

theorem sortByLenDesc_perm (l : List Str) : List.Perm (sortByLenDesc l) l := by
  suffices haux : ∀ (acc : List Str),
      List.Perm (l.foldl (fun acc x => insDesc x acc) acc) (acc ++ l) by
    simpa using haux []
  induction l with
  | nil => intro acc; simp
  | cons x xs ih =>
    intro acc
    rw [List.foldl_cons]
    refine (ih (insDesc x acc)).trans ?_
    refine (List.Perm.append_right xs (insDesc_perm x acc)).trans ?_
    exact List.perm_middle.symm

theorem sortByLenDesc_pairwise (l : List Str) :
    (sortByLenDesc l).Pairwise (fun a b => b.length ≤ a.length) := by
  suffices haux : ∀ (acc : List Str),
      acc.Pairwise (fun a b => b.length ≤ a.length) →
      (l.foldl (fun acc x => insDesc x acc) acc).Pairwise
        (fun a b => b.length ≤ a.length) by
    exact haux [] (by simp)
  induction l with
  | nil => exact fun acc h => h
  | cons x xs ih =>
    intro acc hacc
    rw [List.foldl_cons]
    exact ih _ (insDesc_pairwise x hacc)

/-- In a longest-first list that contains `text` itself, the first
element that is a beginning of `text` is exactly `text`: the earlier,
longer candidates cannot be proper beginnings of it. -/
theorem find?_isPrefixOf_self {l : List Str} {text : Str}
    (hmem : text ∈ l) (hsort : l.Pairwise (fun a b => b.length ≤ a.length)) :
    l.find? (fun kw => kw.isPrefixOf text) = some text := by
  induction l with
  | nil => simp at hmem
  | cons k rest ih =>
    rw [List.pairwise_cons] at hsort
    by_cases hk : k = text
    · subst hk
      exact List.find?_cons_of_pos _ (List.isPrefixOf_iff_prefix.mpr (List.prefix_refl _))
    · have htext : text ∈ rest := by
        rcases List.mem_cons.mp hmem with h1 | h1
        · exact absurd h1.symm hk
        · exact h1
      have hnot : ¬(k.isPrefixOf text = true) := by
        intro hpre
        rw [List.isPrefixOf_iff_prefix] at hpre
        have hlen1 : k.length ≤ text.length := hpre.length_le
        have hlen2 : text.length ≤ k.length := hsort.1 text htext
        exact hk (hpre.eq_of_length (Nat.le_antisymm hlen1 hlen2))
      rw [List.find?_cons_of_neg (p := fun kw => kw.isPrefixOf text) rest hnot]
      exact ih htext hsort.2

/-- Matching a string that is itself a key of the dictionary: pass 1
finds exactly that key (earlier candidates are at least as long, and an
equally long beginning must be the string itself), consumes everything
and returns the key's value. -/
theorem findMatchAtStart_key_self {entries : List (Str × KwVal)} {κ : Str}
    (hmem : κ ∈ objKeys (normalizeKeywordsMap entries))
    (hlow : toLowerStr κ = κ) :
    (mkKeywordMatcher entries).findMatchAtStart κ =
      some ((mapLookup (normalizeKeywordsMap entries) κ).getD (.arr []), []) := by
  have hmem2 : κ ∈ sortByLenDesc (objKeys (normalizeKeywordsMap entries)) :=
    (sortByLenDesc_perm _).mem_iff.mpr hmem
  have hsorted := sortByLenDesc_pairwise (objKeys (normalizeKeywordsMap entries))
  simp only [KeywordMatcher.findMatchAtStart, mkKeywordMatcher, hlow]
  rw [find?_isPrefixOf_self hmem2 hsorted]
  simp [List.drop_length, trimStr]

/-- C10: each dictionary term is indexed under its lowercased-trimmed key
and its space-stripped key; when a later term produces the same index
key, it silently overwrites the earlier labels, and matching that key
afterwards yields only the later term's value. -/
theorem C10_collision_last_writer_wins
    (l1 l2 : List (Str × KwVal)) (t κ : Str) (v : KwVal)
    (hκ : κ = normKey t ∨ κ = spaceKey t)
    (hafter : ∀ p ∈ l2, normKey p.1 ≠ κ ∧ spaceKey p.1 ≠ κ) :
    mapLookup (normalizeKeywordsMap (l1 ++ (t, v) :: l2)) κ = some v ∧
    (mkKeywordMatcher (l1 ++ (t, v) :: l2)).findMatchAtStart κ = some (v, []) := by
  have hlook : mapLookup (normalizeKeywordsMap (l1 ++ (t, v) :: l2)) κ = some v := by
    rw [normalizeKeywordsMap, List.foldl_append, List.foldl_cons]
    rw [mapLookup_foldl_untouched hafter]
    rw [mapLookup_normStep]
    rcases hκ with h | h
    · by_cases hsp : spaceKey t = κ
      · rw [if_pos hsp]
      · rw [if_neg hsp, if_pos h.symm]
    · rw [if_pos h.symm]
  refine ⟨hlook, ?_⟩
  have hlow : toLowerStr κ = κ := by
    rcases hκ with h | h
    · rw [h]; exact toLowerStr_normKey t
    · rw [h]; exact toLowerStr_spaceKey t
  have hmem : κ ∈ objKeys (normalizeKeywordsMap (l1 ++ (t, v) :: l2)) := by
    have hentry : (t, v) ∈ l1 ++ (t, v) :: l2 :=
      List.mem_append_right _ (List.mem_cons_self _ _)
    rcases hκ with h | h
    · rw [h]; exact (keys_mem_of_entry hentry).1
    · rw [h]; exact (keys_mem_of_entry hentry).2
  rw [findMatchAtStart_key_self hmem hlow, hlook]
  rfl

/-- Witness for C10: with terms `"sun set"` then `"sunset"`, the shared
index key `"sunset"` maps to the later term's label `B`, and matching
`"sunset"` yields only `B`. -/
theorem C10_collision_last_writer_wins_witness :
    mapLookup (normalizeKeywordsMap
        [(chars "sun set", .str "A"), (chars "sunset", .str "B")])
      (chars "sunset") = some (.str "B") ∧
    (mkKeywordMatcher [(chars "sun set", .str "A"), (chars "sunset", .str "B")]).findMatchAtStart
      (chars "sunset") = some (.str "B", []) :=
  C10_collision_last_writer_wins [(chars "sun set", .str "A")] []
    (chars "sunset") (chars "sunset") (.str "B")
    (Or.inl (by decide))
    (fun p hp => absurd hp (List.not_mem_nil p))

/-- C4 (evidence of the defect): with dictionary term `"sunset"` and
remaining text `"sun set"`, pass 1 fails, pass 2 matches, and
`indexOf("sunset")` on `"sun set"` is `-1`, so the computed original
length is `-1 + 6 = 5`: the matcher consumes `"sun s"` and leaves
`"et"`, not the full spaced occurrence `"sun set"` (which would leave
the empty string). -/
theorem C4_pass2_consumes_wrong_length :
    (mkKeywordMatcher [(chars "sunset", .str "L")]).findMatchAtStart (chars "sun set") =
      some (.str "L", chars "et") ∧ chars "et" ≠ ([] : Str) :=
  ⟨by decide, by decide⟩

/-! ## Termination of the matching loop -/

theorem length_collapseWs_le (s : Str) : (collapseWs s).length ≤ s.length := by
  suffices haux : ∀ (pw : Bool) (u : Str), (collapseWsAux pw u).length ≤ u.length from
    haux false s
  intro pw u
  induction u generalizing pw with
  | nil => simp [collapseWsAux]
  | cons c cs ih =>
    rw [collapseWsAux]
    split
    · split
      · exact Nat.le_trans (ih true) (by simp)
      · simpa using ih true
    · simpa using ih false

theorem intercalate_cons_ne_nil (sep a : Str) {l : List Str} (h : l ≠ []) :
    List.intercalate sep (a :: l) = a ++ sep ++ List.intercalate sep l := by
  obtain ⟨b, t, rfl⟩ := List.exists_cons_of_ne_nil h
  simp only [List.intercalate, List.intersperse_cons_cons, List.flatten_cons]
  simp [List.append_assoc]

theorem intercalate_single (sep a : Str) : List.intercalate sep [a] = a := by
  simp [List.intercalate]

theorem splitOnChar_ne_nil (sep : Char) (s : Str) : splitOnChar sep s ≠ [] := by
  cases s with
  | nil => simp [splitOnChar]
  | cons c cs =>
    rw [splitOnChar]
    split <;> simp

theorem intercalate_splitOnChar (sep : Char) (u : Str) :
    List.intercalate [sep] (splitOnChar sep u) = u := by
  induction u with
  | nil => simp [splitOnChar, intercalate_single]
  | cons c cs ih =>
    rw [splitOnChar]
    split
    · rename_i hc
      subst hc
      rw [intercalate_cons_ne_nil _ _ (splitOnChar_ne_nil _ _), ih]
      simp
    · obtain ⟨h, t, hht⟩ := List.exists_cons_of_ne_nil (splitOnChar_ne_nil sep cs)
      rw [hht]
      simp only [List.headI, List.tail]
      cases t with
      | nil =>
        rw [intercalate_single]
        rw [hht, intercalate_single] at ih
        simp [ih]
      | cons b t2 =>
        rw [intercalate_cons_ne_nil _ _ (by simp)]
        rw [hht, intercalate_cons_ne_nil _ _ (by simp)] at ih
        simp only [List.cons_append, List.append_assoc] at ih ⊢
        rw [ih]

theorem length_dropFirstWord_lt {s : Str} (h : s ≠ []) :
    (dropFirstWord s).length < s.length := by
  have hlen : (collapseWs s).length ≤ s.length := length_collapseWs_le s
  have hslen : 1 ≤ s.length := by
    cases s with
    | nil => exact absurd rfl h
    | cons c cs => simp
  obtain ⟨w, tl, hw⟩ := List.exists_cons_of_ne_nil (splitOnChar_ne_nil ' ' (collapseWs s))
  rw [dropFirstWord, wordsOf, hw]
  cases tl with
  | nil =>
    simp only [List.tail]
    simp [List.intercalate]
    omega
  | cons b t2 =>
    simp only [List.tail]
    have hjoin := intercalate_splitOnChar ' ' (collapseWs s)
    rw [hw, intercalate_cons_ne_nil _ _ (by simp)] at hjoin
    have : (w ++ [' '] ++ List.intercalate [' '] (b :: t2)).length = (collapseWs s).length := by
      rw [hjoin]
    simp only [List.length_append, List.length_cons, List.length_nil] at this
    omega

theorem normKey_head_not_ws {t : Str} {c : Char} {r : Str} (h : normKey t = c :: r) :
    jsWs c = false := by
  apply head?_trimStr_not_ws (s := toLowerStr t)
  rw [← normKey, h]
  rfl

theorem spaceKey_head_not_ws {t : Str} {c : Char} {r : Str} (h : spaceKey t = c :: r) :
    jsWs c = false := by
  apply mem_stripWs_not_ws (s := normKey t)
  rw [← spaceKey, h]
  exact List.mem_cons_self _ _

theorem spaceKey_ne_nil {t : Str} (h : normKey t ≠ []) : spaceKey t ≠ [] := by
  obtain ⟨c, r, hc⟩ := List.exists_cons_of_ne_nil h
  have hws : jsWs c = false := normKey_head_not_ws hc
  rw [spaceKey, hc, stripWs_cons_of_not_ws hws]
  simp

/-- Shape of every index key when no dictionary term normalises to the
empty string: keys are nonempty and start with a non-whitespace
character. -/
theorem key_shape {entries : List (Str × KwVal)}
    (hkeys : ∀ p ∈ entries, normKey p.1 ≠ []) {κ : Str}
    (h : κ ∈ objKeys (normalizeKeywordsMap entries)) :
    κ ≠ [] ∧ ∀ c r, κ = c :: r → jsWs c = false := by
  obtain ⟨p, hp, hform⟩ := keys_origin h
  rcases hform with hform | hform
  · subst hform
    exact ⟨hkeys p hp, fun c r hc => normKey_head_not_ws hc⟩
  · subst hform
    exact ⟨spaceKey_ne_nil (hkeys p hp), fun c r hc => spaceKey_head_not_ws hc⟩

theorem sortedKeywords_mem_keys {entries : List (Str × KwVal)} {kw : Str}
    (h : kw ∈ (mkKeywordMatcher entries).sortedKeywords) :
    kw ∈ objKeys (normalizeKeywordsMap entries) := by
  simp only [mkKeywordMatcher] at h
  exact (sortByLenDesc_perm _).mem_iff.mp h

/-- Each successful `findMatchAtStart` strictly shortens the text,
provided no dictionary term normalises to the empty string. -/
theorem findMatchAtStart_shrinks {entries : List (Str × KwVal)}
    (hkeys : ∀ p ∈ entries, normKey p.1 ≠ [])
    {text : Str} (hne : text ≠ []) {v : KwVal} {rest : Str}
    (h : (mkKeywordMatcher entries).findMatchAtStart text = some (v, rest)) :
    rest.length < text.length := by
  have htextlen : 1 ≤ text.length := by
    cases text with
    | nil => exact absurd rfl hne
    | cons c cs => simp
  have hntext : (toLowerStr text).length = text.length := length_toLowerStr text
  rw [KeywordMatcher.findMatchAtStart] at h
  rcases hp1 : (mkKeywordMatcher entries).sortedKeywords.find?
      (fun kw => kw.isPrefixOf (toLowerStr text)) with _ | kw
  · rw [hp1] at h
    simp only at h
    rcases hp2 : (mkKeywordMatcher entries).sortedKeywords.find?
        (fun kw => (stripWs kw).isPrefixOf (stripWs (toLowerStr text))) with _ | kw
    · rw [hp2] at h
      simp at h
    · rw [hp2] at h
      simp only [Option.some_inj, Prod.mk.injEq] at h
      have hkwmem := sortedKeywords_mem_keys (List.mem_of_find?_eq_some hp2)
      have hkwshape := key_shape hkeys hkwmem
      obtain ⟨c, kr, hkw⟩ := List.exists_cons_of_ne_nil hkwshape.1
      have hrest : rest = trimStr ((toLowerStr text).drop
          (match indexOfSub (toLowerStr text) kw with
           | some i => i + kw.length
           | none => kw.length - 1)) := h.2.symm
      rcases hidx : indexOfSub (toLowerStr text) kw with _ | i
      · rw [hidx] at hrest
        by_cases hkr : kr = []
        · subst hkr
          obtain ⟨d, ds, hd⟩ := List.exists_cons_of_ne_nil
            (show toLowerStr text ≠ [] by
              intro hnil
              rw [hnil] at hntext
              simp at hntext
              omega)
          rcases hdws : jsWs d with _ | _
          · exfalso
            have hcws : jsWs c = false := hkwshape.2 c [] hkw
            have hpre : kw.isPrefixOf (toLowerStr text) = true := by
              rw [hkw, hd]
              have hstrip : stripWs (toLowerStr text) = d :: stripWs ds := by
                rw [hd, stripWs_cons_of_not_ws hdws]
              have hfound := List.find?_some hp2
              rw [hkw, stripWs_cons_of_not_ws hcws, hstrip] at hfound
              simp only [stripWs, List.filter_nil] at hfound
              rw [List.isPrefixOf_iff_prefix] at hfound
              obtain ⟨u, hu⟩ := hfound
              have hdc : c = d := by
                have := congrArg (fun l => l.head?) hu
                simpa using this
              rw [← hdc]
              rw [List.isPrefixOf_iff_prefix]
              exact ⟨ds, by simp⟩
            have hnone := List.find?_eq_none.mp hp1 kw (List.mem_of_find?_eq_some hp2)
            simp only [decide_eq_true_eq] at hnone
            exact hnone hpre
          · rw [hkw] at hrest
            simp only [List.length_cons, List.length_nil] at hrest
            rw [hd] at hrest
            simp only [Nat.zero_add, Nat.sub_self, List.drop_zero] at hrest
            rw [hrest]
            calc (trimStr (d :: ds)).length < (d :: ds).length :=
                  length_trimStr_lt_of_head_ws hdws
              _ = text.length := by rw [← hd, hntext]
        · have hkwlen : 2 ≤ kw.length := by
            rw [hkw]
            cases kr with
            | nil => exact absurd rfl hkr
            | cons b bs => simp
          rw [hrest]
          calc (trimStr ((toLowerStr text).drop (kw.length - 1))).length
              ≤ ((toLowerStr text).drop (kw.length - 1)).length := length_trimStr_le _
            _ = (toLowerStr text).length - (kw.length - 1) := List.length_drop _ _
            _ < text.length := by omega
      · rw [hidx] at hrest
        have hkwlen : 1 ≤ kw.length := by
          rw [hkw]; simp
        rw [hrest]
        calc (trimStr ((toLowerStr text).drop (i + kw.length))).length
            ≤ ((toLowerStr text).drop (i + kw.length)).length := length_trimStr_le _
          _ = (toLowerStr text).length - (i + kw.length) := List.length_drop _ _
          _ < text.length := by omega
  · rw [hp1] at h
    simp only [Option.some_inj, Prod.mk.injEq] at h
    have hkwmem := sortedKeywords_mem_keys (List.mem_of_find?_eq_some hp1)
    have hkwshape := key_shape hkeys hkwmem
    have hkwlen : 1 ≤ kw.length := by
      cases hkw2 : kw with
      | nil => exact absurd hkw2 hkwshape.1
      | cons b bs => simp
    have hrest : rest = trimStr ((toLowerStr text).drop kw.length) := h.2.symm
    rw [hrest]
    calc (trimStr ((toLowerStr text).drop kw.length)).length
        ≤ ((toLowerStr text).drop kw.length).length := length_trimStr_le _
      _ = (toLowerStr text).length - kw.length := List.length_drop _ _
      _ < text.length := by omega

/-- Unfolding equation of `matchLoop` on a nonempty text. -/
theorem matchLoop_succ_cons (km : KeywordMatcher) (n : Nat) (c : Char) (cs : Str)
    (acc : List String) :
    KeywordMatcher.matchLoop km (n + 1) (c :: cs) acc =
      match km.findMatchAtStart (c :: cs) with
      | none => KeywordMatcher.matchLoop km n (dropFirstWord (c :: cs)) acc
      | some (v, rest) => KeywordMatcher.matchLoop km n rest (KeywordMatcher.addLabels acc v) :=
  rfl

/-- Fuel `n` exceeding the text length suffices for the matching loop:
each iteration either matches (strictly shortening the text) or drops
the leading word (also strictly shortening). -/
theorem matchLoop_isSome {entries : List (Str × KwVal)}
    (hkeys : ∀ p ∈ entries, normKey p.1 ≠ []) :
    ∀ (n : Nat) (text : Str) (acc : List String), text.length < n →
      (KeywordMatcher.matchLoop (mkKeywordMatcher entries) n text acc).isSome := by
  intro n
  induction n with
  | zero => intro text acc h; omega
  | succ n ih =>
    intro text acc h
    cases text with
    | nil => simp [KeywordMatcher.matchLoop]
    | cons c cs =>
      rw [matchLoop_succ_cons]
      rcases hm : (mkKeywordMatcher entries).findMatchAtStart (c :: cs) with _ | vr
      · have hlt := length_dropFirstWord_lt (s := c :: cs) (by simp)
        exact ih (dropFirstWord (c :: cs)) acc (by omega)
      · obtain ⟨v, rest⟩ := vr
        have hlt := findMatchAtStart_shrinks hkeys (by simp) hm
        exact ih rest _ (by omega)

/-- `findKeywordsInPhrase` terminates whenever no dictionary term
normalises to the empty string. -/
theorem findKeywordsInPhrase_isSome {entries : List (Str × KwVal)}
    (hkeys : ∀ p ∈ entries, normKey p.1 ≠ []) (phrase : Str) :
    ((mkKeywordMatcher entries).findKeywordsInPhrase phrase).isSome := by
  rw [KeywordMatcher.findKeywordsInPhrase]
  exact matchLoop_isSome hkeys _ _ [] (by omega)

/-- C7 (amended): the per-phrase matching loop terminates for every
input string whenever no dictionary term normalises to the empty
string. -/
theorem C7_phrase_loop_terminates (entries : List (Str × KwVal))
    (hkeys : ∀ p ∈ entries, normKey p.1 ≠ []) (phrase : Str) :
    ((mkKeywordMatcher entries).findKeywordsInPhrase phrase).isSome :=
  findKeywordsInPhrase_isSome hkeys phrase

/-- Witness for C7: a one-term dictionary and a phrase on which the loop
terminates. -/
theorem C7_phrase_loop_terminates_witness :
    ((mkKeywordMatcher [(chars "oak", .str "Tree: Oak")]).findKeywordsInPhrase
      (chars "an oak tree")).isSome :=
  C7_phrase_loop_terminates [(chars "oak", .str "Tree: Oak")] (by decide) (chars "an oak tree")

/-- C7 (counterexample): with the dictionary term `" "` (whitespace
only), whose normalised key is the empty string, the loop matches the
empty key, consumes nothing, and never terminates on input `"hello"`:
no amount of fuel reaches a result. -/
theorem C7_counterexample :
    ¬ ∃ (fuel : Nat) (res : List String),
      KeywordMatcher.matchLoop (mkKeywordMatcher [(chars " ", .str "X")]) fuel
        (KeywordMatcher.cleanTerm (chars "hello")) [] = some res := by
  rintro ⟨fuel, res, hres⟩
  have hclean : KeywordMatcher.cleanTerm (chars "hello") = chars "hello" := by decide
  rw [hclean] at hres
  have haux : ∀ (n : Nat) (acc : List String),
      KeywordMatcher.matchLoop (mkKeywordMatcher [(chars " ", .str "X")]) n
        (chars "hello") acc = none := by
    intro n
    induction n with
    | zero => intro acc; rfl
    | succ n ih =>
      intro acc
      have hstep : (mkKeywordMatcher [(chars " ", .str "X")]).findMatchAtStart
          (chars "hello") = some (.str "X", chars "hello") := by decide
      have hunfold := matchLoop_succ_cons (mkKeywordMatcher [(chars " ", .str "X")]) n
        'h' (chars "ello") acc
      rw [show chars "hello" = 'h' :: chars "ello" from rfl, hunfold,
        show ('h' :: chars "ello") = chars "hello" from rfl, hstep]
      exact ih _
  rw [haux fuel []] at hres
  exact Option.noConfusion hres

/-! ## Exact matching of a whole dictionary term -/

theorem splitOnChar_eq_single {sep : Char} {s : Str} (h : sep ∉ s) :
    splitOnChar sep s = [s] := by
  induction s with
  | nil => rfl
  | cons c cs ih =>
    have hc : ¬(c = sep) := fun hq => h (hq ▸ List.mem_cons_self _ _)
    rw [splitOnChar, if_neg hc, ih (fun hq => h (List.mem_cons_of_mem _ hq))]
    rfl

theorem splitOnChar_append_sep {sep : Char} {l1 l2 : Str} (h : sep ∉ l1) :
    splitOnChar sep (l1 ++ sep :: l2) = l1 :: splitOnChar sep l2 := by
  induction l1 with
  | nil => simp [splitOnChar]
  | cons c cs ih =>
    have hc : ¬(c = sep) := fun hq => h (hq ▸ List.mem_cons_self _ _)
    rw [List.cons_append, splitOnChar, if_neg hc,
      ih (fun hq => h (List.mem_cons_of_mem _ hq))]
    rfl

theorem matchLoop_nil (km : KeywordMatcher) (n : Nat) (acc : List String) :
    KeywordMatcher.matchLoop km n [] acc = some acc := by
  cases n <;> rfl

theorem mem_addUnique_left {acc : List String} {s x : String} (h : s ∈ acc) :
    s ∈ KeywordMatcher.addUnique acc x := by
  rw [KeywordMatcher.addUnique]
  split
  · exact h
  · exact List.mem_append_left _ h

theorem mem_addUnique_self (acc : List String) (s : String) :
    s ∈ KeywordMatcher.addUnique acc s := by
  rw [KeywordMatcher.addUnique]
  split
  · assumption
  · simp

theorem mem_addUnique_inv {acc : List String} {s x : String}
    (h : s ∈ KeywordMatcher.addUnique acc x) : s ∈ acc ∨ s = x := by
  rw [KeywordMatcher.addUnique] at h
  split at h
  · exact Or.inl h
  · rcases List.mem_append.mp h with h1 | h1
    · exact Or.inl h1
    · exact Or.inr (by simpa using h1)

theorem mem_foldl_addUnique_left {l : List String} {acc : List String} {s : String}
    (h : s ∈ acc) : s ∈ l.foldl KeywordMatcher.addUnique acc := by
  induction l generalizing acc with
  | nil => exact h
  | cons x xs ih => exact ih (mem_addUnique_left h)

theorem mem_foldl_addUnique_of_mem {l : List String} {acc : List String} {s : String}
    (h : s ∈ l) : s ∈ l.foldl KeywordMatcher.addUnique acc := by
  induction l generalizing acc with
  | nil => simp at h
  | cons x xs ih =>
    rcases List.mem_cons.mp h with h1 | h1
    · subst h1
      rw [List.foldl_cons]
      exact mem_foldl_addUnique_left (mem_addUnique_self acc s)
    · exact ih h1

theorem mem_foldl_addUnique_inv {l : List String} {acc : List String} {s : String}
    (h : s ∈ l.foldl KeywordMatcher.addUnique acc) : s ∈ acc ∨ s ∈ l := by
  induction l generalizing acc with
  | nil => exact Or.inl h
  | cons x xs ih =>
    rcases ih h with h1 | h1
    · rcases mem_addUnique_inv h1 with h2 | h2
      · exact Or.inl h2
      · exact Or.inr (h2 ▸ List.mem_cons_self _ _)
    · exact Or.inr (List.mem_cons_of_mem _ h1)

theorem addUnique_nodup {acc : List String} {s : String} (h : acc.Nodup) :
    (KeywordMatcher.addUnique acc s).Nodup := by
  rw [KeywordMatcher.addUnique]
  split
  · exact h
  · rename_i hnot
    simpa [List.nodup_append] using ⟨h, hnot⟩

theorem foldl_addUnique_nodup {l : List String} {acc : List String} (h : acc.Nodup) :
    (l.foldl KeywordMatcher.addUnique acc).Nodup := by
  induction l generalizing acc with
  | nil => exact h
  | cons x xs ih => exact ih (addUnique_nodup h)

theorem addLabels_nodup {acc : List String} {v : KwVal} (h : acc.Nodup) :
    (KeywordMatcher.addLabels acc v).Nodup := by
  cases v with
  | str s => exact addUnique_nodup h
  | arr ls => exact foldl_addUnique_nodup h

theorem mem_addLabels_of_label {acc : List String} {v : KwVal} {s : String}
    (h : s ∈ v.labels) : s ∈ KeywordMatcher.addLabels acc v := by
  cases v with
  | str x =>
    have : s = x := by simpa [KwVal.labels] using h
    subst this
    exact mem_addUnique_self acc s
  | arr ls =>
    exact mem_foldl_addUnique_of_mem (by simpa [KwVal.labels] using h)

theorem mem_addLabels_inv {acc : List String} {v : KwVal} {s : String}
    (h : s ∈ KeywordMatcher.addLabels acc v) : s ∈ acc ∨ s ∈ v.labels := by
  cases v with
  | str x =>
    rcases mem_addUnique_inv h with h1 | h1
    · exact Or.inl h1
    · exact Or.inr (by simp [KwVal.labels, h1])
  | arr ls =>
    rcases mem_foldl_addUnique_inv h with h1 | h1
    · exact Or.inl h1
    · exact Or.inr (by simpa [KwVal.labels] using h1)

theorem foldl_addUnique_of_nodup :
    ∀ {m acc : List String}, (acc ++ m).Nodup →
      m.foldl KeywordMatcher.addUnique acc = acc ++ m := by
  intro m
  induction m with
  | nil => intro acc _; simp
  | cons s ms ih =>
    intro acc h
    rw [List.nodup_append] at h
    have hs : s ∉ acc := fun hmem => h.2.2 hmem (List.mem_cons_self _ _)
    rw [List.foldl_cons]
    rw [show KeywordMatcher.addUnique acc s = acc ++ [s] by
      rw [KeywordMatcher.addUnique, if_neg hs]]
    rw [ih (by
      rw [List.append_assoc]
      rw [List.nodup_append]
      refine ⟨h.1, by simpa using h.2.1, ?_⟩
      intro a ha hb
      exact h.2.2 ha (by simpa using hb))]
    simp

/-- A phrase whose cleaned form is itself a dictionary key is matched in
one step: the whole key is consumed and the key's value collected. -/
theorem findKeywordsInPhrase_key {entries : List (Str × KwVal)} {phrase κ : Str} {v : KwVal}
    (hclean : KeywordMatcher.cleanTerm phrase = κ)
    (hmem : κ ∈ objKeys (normalizeKeywordsMap entries))
    (hlow : toLowerStr κ = κ)
    (hlook : mapLookup (normalizeKeywordsMap entries) κ = some v)
    (hκne : κ ≠ []) :
    (mkKeywordMatcher entries).findKeywordsInPhrase phrase =
      some (KeywordMatcher.addLabels [] v) := by
  rw [KeywordMatcher.findKeywordsInPhrase, hclean]
  obtain ⟨c, cs, rfl⟩ := List.exists_cons_of_ne_nil hκne
  rw [show (c :: cs : Str).length + 1 = (cs.length + 1) + 1 by simp]
  rw [matchLoop_succ_cons]
  rw [findMatchAtStart_key_self hmem hlow, hlook]
  exact matchLoop_nil _ _ _

/-- C5 (amended): longest-match precedence.  If the dictionary holds a
term and a strictly longer term it is a beginning of, the longer term —
comma-free, with its cleaned form equal to its normalised key, and with
that key not overwritten by any other entry — matches as a whole:
`findKeywords` on the longer term's text returns exactly the longer
term's labels, and none of the shorter term's distinct labels. -/
theorem C5_longest_match_precedence
    (entries : List (Str × KwVal)) (t1 t2 : Str) (v1 v2 : KwVal)
    (hmem1 : (t1, v1) ∈ entries) (hmem2 : (t2, v2) ∈ entries)
    (hpre : t1.isPrefixOf t2 = true) (hlen : t1.length < t2.length)
    (hnc : ',' ∉ t2)
    (hclean : KeywordMatcher.cleanTerm t2 = normKey t2)
    (hne : normKey t2 ≠ [])
    (hlook : mapLookup (normalizeKeywordsMap entries) (normKey t2) = some v2) :
    (mkKeywordMatcher entries).findKeywords t2 =
      some (KeywordMatcher.addLabels [] v2) ∧
    ∀ s, s ∈ v1.labels → s ∉ v2.labels →
      s ∉ ((mkKeywordMatcher entries).findKeywords t2).getD [] := by
  have hmain : (mkKeywordMatcher entries).findKeywords t2 =
      some (KeywordMatcher.addLabels [] v2) := by
    rw [KeywordMatcher.findKeywords]
    rw [show splitOnComma t2 = [t2] from splitOnChar_eq_single hnc]
    rw [List.foldl_cons, List.foldl_nil]
    rw [findKeywordsInPhrase_key hclean (keys_mem_of_entry hmem2).1
      (toLowerStr_normKey t2) hlook hne]
    show some ((KeywordMatcher.addLabels [] v2).foldl KeywordMatcher.addUnique []) =
      some (KeywordMatcher.addLabels [] v2)
    rw [foldl_addUnique_of_nodup (by simpa using addLabels_nodup (List.nodup_nil))]
    simp
  refine ⟨hmain, ?_⟩
  intro s hs1 hs2 hsmem
  rw [hmain] at hsmem
  simp only [Option.getD_some] at hsmem
  rcases mem_addLabels_inv hsmem with h1 | h1
  · simp at h1
  · exact hs2 h1

/-- Witness for C5: dictionary `{pine: A, pine tree: B}` and input
`"pine tree"` yield exactly `B`. -/
theorem C5_longest_match_precedence_witness :
    (mkKeywordMatcher [(chars "pine", .str "A"), (chars "pine tree", .str "B")]).findKeywords
      (chars "pine tree") = some ["B"] ∧
    "A" ∉ ((mkKeywordMatcher [(chars "pine", .str "A"),
      (chars "pine tree", .str "B")]).findKeywords (chars "pine tree")).getD [] := by
  have h := C5_longest_match_precedence
    [(chars "pine", .str "A"), (chars "pine tree", .str "B")]
    (chars "pine") (chars "pine tree") (.str "A") (.str "B")
    (by decide) (by decide) (by decide) (by decide) (by decide) (by decide)
    (by decide) (by decide)
  exact ⟨h.1, h.2 "A" (by decide) (by decide)⟩

/-- C6 (amended): any dictionary term appearing as its own comma-separated
phrase is matched, provided no term normalises to the empty string, the
term is comma-free, its cleaned phrase form equals its normalised key
(no colons, parentheses or doubled spaces), and that key is not
overwritten by a later entry.  All of the term's labels are in the
result. -/
theorem C6_term_as_phrase_matched
    (entries : List (Str × KwVal)) (t : Str) (v : KwVal)
    (hmem : (t, v) ∈ entries)
    (hkeys : ∀ p ∈ entries, normKey p.1 ≠ [])
    (hnc : ',' ∉ t)
    (hclean : KeywordMatcher.cleanTerm (' ' :: t) = normKey t)
    (hlook : mapLookup (normalizeKeywordsMap entries) (normKey t) = some v) :
    ∃ res, (mkKeywordMatcher entries).findKeywords (chars "prefix text, " ++ t) = some res ∧
      ∀ s ∈ v.labels, s ∈ res := by
  have hsplit : splitOnComma (chars "prefix text, " ++ t) =
      [chars "prefix text", ' ' :: t] := by
    rw [show chars "prefix text, " ++ t = chars "prefix text" ++ ',' :: (' ' :: t) from rfl]
    rw [splitOnComma, splitOnChar_append_sep (by decide)]
    rw [splitOnChar_eq_single (by
      intro hc
      rcases List.mem_cons.mp hc with h1 | h1
      · exact absurd h1.symm (by decide)
      · exact hnc h1)]
  obtain ⟨a1, ha1⟩ := Option.isSome_iff_exists.mp
    (findKeywordsInPhrase_isSome hkeys (chars "prefix text"))
  have hphrase2 : (mkKeywordMatcher entries).findKeywordsInPhrase (' ' :: t) =
      some (KeywordMatcher.addLabels [] v) :=
    findKeywordsInPhrase_key hclean (keys_mem_of_entry hmem).1
      (toLowerStr_normKey t) hlook (hkeys (t, v) hmem)
  rw [KeywordMatcher.findKeywords, hsplit, List.foldl_cons, List.foldl_cons,
    List.foldl_nil, ha1, hphrase2]
  exact ⟨_, rfl, fun s hs => mem_foldl_addUnique_of_mem (mem_addLabels_of_label hs)⟩

/-- Witness for C6: dictionary `{oak: "Tree: Oak"}` and input
`"prefix text, oak"`. -/
theorem C6_term_as_phrase_matched_witness :
    "Tree: Oak" ∈ ((mkKeywordMatcher [(chars "oak", .str "Tree: Oak")]).findKeywords
      (chars "prefix text, oak")).getD [] := by
  obtain ⟨res, hres, hsmem⟩ := C6_term_as_phrase_matched
    [(chars "oak", .str "Tree: Oak")] (chars "oak") (.str "Tree: Oak")
    (by decide) (by decide) (by decide) (by decide) (by decide)
  rw [show chars "prefix text, oak" = chars "prefix text, " ++ chars "oak" from rfl, hres]
  exact hsmem "Tree: Oak" (by decide)

/-- Counterexample for C5 as stated: the terms `"a"` and `"a,b"` satisfy
the claim's hypotheses (the first is a strict beginning of the second,
labels are distinct), yet `findKeywords` on the longer term's text
returns the shorter term's label only — the comma splits the longer term
across phrases before matching. -/
theorem C5_counterexample :
    (mkKeywordMatcher [(chars "a", .str "A"), (chars "a,b", .str "B")]).findKeywords
      (chars "a,b") = some ["A"] ∧ "B" ∉ (["A"] : List String) :=
  ⟨by decide, by decide⟩

/-- Counterexample for C6 as stated: the dictionary term `"a:b"` is
indexed raw, but `cleanTerm` deletes the phrase's colon part, so the
term is never matched and its label is absent from the result. -/
theorem C6_counterexample :
    (mkKeywordMatcher [(chars "a:b", .str "L")]).findKeywords
      (chars "prefix text, " ++ chars "a:b") = some [] ∧
    "L" ∉ ([] : List String) :=
  ⟨by decide, by decide⟩

/-! ## Prompt-extraction facts -/

theorem parametersStrategy_some_ne_nil {md : Metadata} {ps : List PromptEntry}
    (h : parametersStrategy md = .ok (some ps)) : ps ≠ [] := by
  rw [parametersStrategy] at h
  split at h
  · simp at h
  · split at h
    · simp at h
    · dsimp only [] at h
      split at h
      · simp at h
      · simp only [Except.ok.injEq, Option.some_inj] at h
        rw [← h]
        simp

theorem jsonPromptStrategy_some_ne_nil {md : Metadata} {ps : List PromptEntry}
    (h : jsonPromptStrategy md = .ok (some ps)) : ps ≠ [] := by
  rw [jsonPromptStrategy] at h
  split at h
  · simp at h
  · split at h
    · simp at h
    · split at h
      · simp at h
      · split at h
        · simp at h
        · dsimp only [] at h
          split at h
          · simp at h
          · rename_i hne
            simp only [Except.ok.injEq, Option.some_inj] at h
            rw [← h]
            exact hne

/-- C2: the service runs the parameters strategy strictly before the
JSON-prompt strategy; the first strategy returning a non-null (hence
non-empty) prompt list determines the result regardless of the later
strategy; a strategy that throws is treated as a non-match; a
structured-record comment whose text fails to parse as JSON is a
non-match; and if every strategy yields no match the result is exactly
`null`. -/
theorem C2_strategy_order :
    (∀ (md : Metadata) (ps : List PromptEntry),
      parametersStrategy md = .ok (some ps) →
      ps ≠ [] ∧ ∀ g : StrategyFn,
        extractPromptsGen [("parameters", parametersStrategy), ("jsonPrompt", g)] md =
          some ⟨"parameters", ps⟩) ∧
    (∀ (md : Metadata) (ps : List PromptEntry),
      parametersStrategy md = .ok none → jsonPromptStrategy md = .ok (some ps) →
      ps ≠ [] ∧ extractPrompts md = some ⟨"jsonPrompt", ps⟩) ∧
    (∀ (id : String) (f : StrategyFn) (rest : List (String × StrategyFn)) (md : Metadata),
      f md = .error () →
      extractPromptsGen ((id, f) :: rest) md = extractPromptsGen rest md) ∧
    (∀ (md : Metadata) (cs : List MetaComment) (c : MetaComment),
      md.comments = some cs →
      cs.find? (fun c0 => c0.keyword = "prompt") = some c →
      parseJson c.text = none →
      jsonPromptStrategy md = .ok none) ∧
    (∀ md : Metadata, parametersStrategy md = .ok none → jsonPromptStrategy md = .ok none →
      extractPrompts md = none) := by
  refine ⟨?_, ?_, ?_, ?_, ?_⟩
  · intro md ps h
    refine ⟨parametersStrategy_some_ne_nil h, ?_⟩
    intro g
    rw [extractPromptsGen, h]
  · intro md ps h1 h2
    refine ⟨jsonPromptStrategy_some_ne_nil h2, ?_⟩
    rw [extractPrompts, strategies, extractPromptsGen, h1, extractPromptsGen, h2]
  · intro id f rest md h
    rw [extractPromptsGen, h]
  · intro md cs c hcm hfind hparse
    rw [jsonPromptStrategy, hcm]
    simp only [hfind, hparse]
  · intro md h1 h2
    rw [extractPrompts, strategies, extractPromptsGen, h1, extractPromptsGen, h2]
    rfl

/-- Witness for C2: a parameters comment wins with strategy identifier
`"parameters"`; with only an invalid-JSON prompt comment both strategies
are non-matches and the result is exactly `null`. -/
theorem C2_strategy_order_witness :
    extractPrompts ⟨some [⟨"parameters", chars "oak"⟩]⟩ =
      some ⟨"parameters", [⟨"primary", chars "oak"⟩]⟩ ∧
    extractPrompts ⟨some [⟨"prompt", chars "not json"⟩]⟩ = none := by
  constructor
  · exact (C2_strategy_order.1 ⟨some [⟨"parameters", chars "oak"⟩]⟩
      [⟨"primary", chars "oak"⟩] rfl).2 jsonPromptStrategy
  · exact C2_strategy_order.2.2.2.2 ⟨some [⟨"prompt", chars "not json"⟩]⟩ rfl
      (C2_strategy_order.2.2.2.1 ⟨some [⟨"prompt", chars "not json"⟩]⟩
        [⟨"prompt", chars "not json"⟩] ⟨"prompt", chars "not json"⟩ rfl rfl rfl)

/-! ## Pipeline facts -/

theorem addFile_fileMeta (fs : FS) (p : Str) : (fs.addFile p).fileMeta = fs.fileMeta := by
  rw [FS.addFile]
  split <;> rfl

theorem removeFile_fileMeta (fs : FS) (p : Str) :
    (fs.removeFile p).fileMeta = fs.fileMeta := rfl

theorem setMeta_fileMeta (fs : FS) (p : Str) (m : Str × List String) :
    (fs.setMeta p m).fileMeta = (p, m) :: fs.fileMeta := rfl

theorem foldl_removeFile_fileMeta (temps : List Str) (fs : FS) :
    (temps.foldl FS.removeFile fs).fileMeta = fs.fileMeta := by
  induction temps generalizing fs with
  | nil => rfl
  | cons t ts ih => rw [List.foldl_cons, ih, removeFile_fileMeta]

theorem mem_files_of_foldl_removeFile {temps : List Str} {fs : FS} {p : Str}
    (h : p ∈ (temps.foldl FS.removeFile fs).files) : p ∈ fs.files := by
  induction temps generalizing fs with
  | nil => exact h
  | cons t ts ih =>
    rw [List.foldl_cons] at h
    have h1 := ih h
    rw [FS.removeFile] at h1
    exact List.mem_of_mem_filter h1

theorem not_mem_files_foldl_removeFile {temps : List Str} {fs : FS} {p : Str}
    (h : p ∈ temps) : p ∉ (temps.foldl FS.removeFile fs).files := by
  induction temps generalizing fs with
  | nil => simp at h
  | cons t ts ih =>
    rcases List.mem_cons.mp h with h1 | h1
    · subst h1
      intro hmem
      rw [List.foldl_cons] at hmem
      have h2 := mem_files_of_foldl_removeFile hmem
      rw [FS.removeFile] at h2
      have := List.of_mem_filter h2
      simp at this
    · intro hmem
      rw [List.foldl_cons] at hmem
      exact ih h1 hmem

/-- C1: on every exit path of `processFile` — success, handled failure,
or a failure resolved by the catch handler — every path registered in
the job's temp-file list is absent from the final file-system state; the
`finally` block releases each one, and releasing an absent path is a
no-op rather than an error. -/
theorem C1_temp_files_released
    (entries : List (Str × KwVal)) (cfg : Bool) (o : PipeOracle)
    (filePath destDir : Str) (fs : FS)
    (res : Except Unit Bool) (fsFinal : FS) (temps : List Str)
    (hrun : processFile entries cfg o filePath destDir fs = some (res, fsFinal, temps)) :
    ∀ p ∈ temps, p ∉ fsFinal.files := by
  intro p hp
  rw [processFile] at hrun
  rcases hbody : processFileBody entries cfg o filePath destDir fs with _ | rft
  · rw [hbody] at hrun
    simp at hrun
  · obtain ⟨r, fs1, temps1⟩ := rft
    rw [hbody] at hrun
    rcases r with b | e
    · simp only [Option.some_inj, Prod.mk.injEq] at hrun
      obtain ⟨_, hfs, htemps⟩ := hrun
      subst htemps
      rw [← hfs]
      exact not_mem_files_foldl_removeFile hp
    · simp only [Option.some_inj, Prod.mk.injEq] at hrun
      obtain ⟨_, hfs, htemps⟩ := hrun
      subst htemps
      rw [← hfs]
      exact not_mem_files_foldl_removeFile hp

/-- Witness for C1: a fully successful job; both temp paths are gone
from the final state. -/
theorem C1_temp_files_released_witness :
    chars "temp/b.png" ∉
      (((processFile [(chars "oak", .str "Tree: Oak")] false
        ⟨true, .ok ⟨some [⟨"parameters", chars "oak"⟩]⟩, true,
          chars "temp/b.png", chars "temp/w.png", true, true, true, true, false⟩
        (chars "in/img.png") (chars "out") ⟨[], []⟩).getD
          (.ok false, ⟨[], []⟩, [])).2.1).files := by
  have hrun : processFile [(chars "oak", .str "Tree: Oak")] false
      ⟨true, .ok ⟨some [⟨"parameters", chars "oak"⟩]⟩, true,
        chars "temp/b.png", chars "temp/w.png", true, true, true, true, false⟩
      (chars "in/img.png") (chars "out") ⟨[], []⟩ =
      some (.ok true,
        ⟨[chars "out/img.png"],
         [(chars "out/img.png", (chars "oak", ["Tree: Oak"]))]⟩,
        [chars "temp/b.png", chars "temp/w.png"]) := by rfl
  have h := C1_temp_files_released _ _ _ _ _ _ _ _ _ hrun
    (chars "temp/b.png") (by decide)
  rw [hrun]
  exact h

/-- `processFile` resolves every internal throw in its own catch
handler: the result is never a propagated exception. -/
theorem processFile_shape (entries : List (Str × KwVal)) (cfg : Bool) (o : PipeOracle)
    (filePath destDir : Str) (fs : FS) :
    processFile entries cfg o filePath destDir fs = none ∨
    ∃ b fs' t, processFile entries cfg o filePath destDir fs = some (.ok b, fs', t) := by
  rw [processFile]
  rcases hbody : processFileBody entries cfg o filePath destDir fs with _ | rft
  · exact Or.inl rfl
  · obtain ⟨r, fs1, t1⟩ := rft
    rcases r with e | b
    · exact Or.inr ⟨false, _, _, rfl⟩
    · exact Or.inr ⟨b, _, _, rfl⟩

/-- When the destination-directory creation fails, the try body stops at
that point: nothing has been written, no temp file has been registered,
and the thrown error is the body's result. -/
theorem processFileBody_mkdir_fail
    (entries : List (Str × KwVal)) (cfg : Bool) (o : PipeOracle)
    (filePath destDir : Str) (fs : FS) (hmk : o.mkdirOk = false) :
    processFileBody entries cfg o filePath destDir fs = none ∨
    ∃ r, processFileBody entries cfg o filePath destDir fs = some (r, fs, []) ∧
      r ≠ Except.ok true := by
  rw [processFileBody]
  dsimp only []
  split
  · exact Or.inr ⟨.error (), rfl, by simp⟩
  · split
    · exact Or.inr ⟨.ok false, rfl, by simp⟩
    · split
      · exact Or.inr ⟨.error (), rfl, by simp⟩
      · split
        · exact Or.inr ⟨.ok false, rfl, by simp⟩
        · split
          · exact Or.inr ⟨.ok false, rfl, by simp⟩
          · split
            · exact Or.inr ⟨.error (), rfl, by simp⟩
            · split
              · exact Or.inl rfl
              · rw [hmk]
                simp only [Bool.not_false, if_true]
                exact Or.inr ⟨.error (), rfl, by simp⟩

/-- C3 (amended): no exception ever crosses the `processFile` boundary.
A destination-directory-creation failure aborts the job before any file
write and before any temp file is registered (so cleanup has nothing to
release), but — like every other internal failure — it is caught by the
function's own handler, which returns `false`; the final state adds no
file. -/
theorem C3_dir_failure_not_propagated
    (entries : List (Str × KwVal)) (cfg : Bool) (o : PipeOracle)
    (filePath destDir : Str) (fs : FS) :
    (processFile entries cfg o filePath destDir fs = none ∨
      ∃ b fs' t, processFile entries cfg o filePath destDir fs = some (.ok b, fs', t)) ∧
    (o.mkdirOk = false →
      processFile entries cfg o filePath destDir fs = none ∨
      processFile entries cfg o filePath destDir fs = some (.ok false, fs, [])) := by
  refine ⟨processFile_shape entries cfg o filePath destDir fs, ?_⟩
  intro hmk
  rcases processFileBody_mkdir_fail entries cfg o filePath destDir fs hmk
    with hb | ⟨r, hb, hr⟩
  · left
    rw [processFile, hb]
  · right
    rw [processFile, hb]
    rcases r with e | b
    · rfl
    · rcases b with _ | _
      · rfl
      · exact absurd rfl hr

/-- Witness for C3 (also the counterexample's instance seen through the
amended statement): with directory creation failing, the call returns
`false` with the file system untouched. -/
theorem C3_dir_failure_not_propagated_witness :
    processFile [(chars "oak", .str "Tree: Oak")] false
      ⟨true, .ok ⟨some [⟨"parameters", chars "oak"⟩]⟩, false,
        chars "temp/b.png", chars "temp/w.png", true, true, true, true, false⟩
      (chars "in/img.png") (chars "out") ⟨[], []⟩ =
      some (.ok false, ⟨[], []⟩, []) := by
  rcases (C3_dir_failure_not_propagated [(chars "oak", .str "Tree: Oak")] false
      ⟨true, .ok ⟨some [⟨"parameters", chars "oak"⟩]⟩, false,
        chars "temp/b.png", chars "temp/w.png", true, true, true, true, false⟩
      (chars "in/img.png") (chars "out") ⟨[], []⟩).2 rfl with h | h
  · exact absurd h (by rw [show processFile [(chars "oak", .str "Tree: Oak")] false
      ⟨true, .ok ⟨some [⟨"parameters", chars "oak"⟩]⟩, false,
        chars "temp/b.png", chars "temp/w.png", true, true, true, true, false⟩
      (chars "in/img.png") (chars "out") ⟨[], []⟩ =
      some (.ok false, ⟨[], []⟩, []) from rfl]; simp)
  · exact h

/-- Counterexample for C3 as stated: at a job where only the directory
creation fails, `processFile` returns `Except.ok false` — the throw on
fileProcessor.js line 123 is caught by the function's own catch on line
168, so no exception reaches the caller, contradicting the claim that
this failure is propagated out as an exception the caller must catch. -/
theorem C3_counterexample :
    processFile [(chars "oak", .str "Tree: Oak")] false
      ⟨true, .ok ⟨some [⟨"parameters", chars "oak"⟩]⟩, false,
        chars "temp/b.png", chars "temp/w.png", true, true, true, true, false⟩
      (chars "in/img.png") (chars "out") ⟨[], []⟩ =
      some (.ok false, ⟨[], []⟩, []) ∧
    ∀ e : Unit, processFile [(chars "oak", .str "Tree: Oak")] false
      ⟨true, .ok ⟨some [⟨"parameters", chars "oak"⟩]⟩, false,
        chars "temp/b.png", chars "temp/w.png", true, true, true, true, false⟩
      (chars "in/img.png") (chars "out") ⟨[], []⟩ ≠
      some (.error e, ⟨[], []⟩, []) := by
  constructor
  · rfl
  · intro e
    rw [show processFile [(chars "oak", .str "Tree: Oak")] false
      ⟨true, .ok ⟨some [⟨"parameters", chars "oak"⟩]⟩, false,
        chars "temp/b.png", chars "temp/w.png", true, true, true, true, false⟩
      (chars "in/img.png") (chars "out") ⟨[], []⟩ =
      some (.ok false, ⟨[], []⟩, []) from rfl]
    simp

/-- Inversion of a fully successful try body: the metadata was read, a
strategy matched, the keyword list was computed, and the destination
file's metadata record holds the first prompt's text as description
together with that keyword list. -/
theorem processFileBody_ok_true_inv
    {entries : List (Str × KwVal)} {cfg : Bool} {o : PipeOracle}
    {filePath destDir : Str} {fs fs1 : FS} {temps : List Str}
    (h : processFileBody entries cfg o filePath destDir fs =
      some (.ok true, fs1, temps)) :
    ∃ md er p0 rest matched,
      o.metadataResult = .ok md ∧
      extractPrompts md = some er ∧
      er.prompts = p0 :: rest ∧
      finalKeywords (mkKeywordMatcher entries) cfg er.prompts = some matched ∧
      fs1.fileMeta =
        (pathJoin destDir (baseName filePath), (p0.originalText, matched)) ::
          fs.fileMeta := by
  rw [processFileBody] at h
  dsimp only [] at h
  split at h
  · simp at h
  · split at h
    · simp at h
    · split at h
      · simp at h
      · rename_i md hmd
        split at h
        · simp at h
        · split at h
          · simp at h
          · rename_i er her
            split at h
            · simp at h
            · rename_i p0 rest hprompts
              split at h
              · simp at h
              · rename_i matched hmatched
                split at h
                · simp at h
                · split at h
                  · simp at h
                  · split at h
                    · split at h
                      · simp at h
                      · split at h
                        · simp at h
                        · rw [writePhase] at h
                          split at h
                          · simp at h
                          · simp only [Option.some_inj, Prod.mk.injEq, true_and] at h
                            refine ⟨md, er, p0, rest, matched, hmd, her, hprompts,
                              hmatched, ?_⟩
                            rw [← h.1]
                            simp [removeFile_fileMeta, addFile_fileMeta,
                              setMeta_fileMeta, apply_ite (FS.fileMeta)]
                    · split at h
                      · simp at h
                      · rw [writePhase] at h
                        split at h
                        · simp at h
                        · simp only [Option.some_inj, Prod.mk.injEq, true_and] at h
                          refine ⟨md, er, p0, rest, matched, hmd, her, hprompts,
                            hmatched, ?_⟩
                          rw [← h.1]
                          simp [removeFile_fileMeta, addFile_fileMeta,
                            setMeta_fileMeta, apply_ite (FS.fileMeta)]

/-- Every value a match returns is a value of some dictionary entry. -/
theorem findMatchAtStart_value_origin {entries : List (Str × KwVal)} {text : Str}
    {v : KwVal} {rest : Str}
    (h : (mkKeywordMatcher entries).findMatchAtStart text = some (v, rest)) :
    ∃ p ∈ entries, p.2 = v := by
  rw [KeywordMatcher.findMatchAtStart] at h
  rcases hp1 : (mkKeywordMatcher entries).sortedKeywords.find?
      (fun kw => kw.isPrefixOf (toLowerStr text)) with _ | kw
  · rw [hp1] at h
    simp only at h
    rcases hp2 : (mkKeywordMatcher entries).sortedKeywords.find?
        (fun kw => (stripWs kw).isPrefixOf (stripWs (toLowerStr text))) with _ | kw
    · rw [hp2] at h
      simp at h
    · rw [hp2] at h
      simp only [Option.some_inj, Prod.mk.injEq] at h
      have hkwmem := sortedKeywords_mem_keys (List.mem_of_find?_eq_some hp2)
      obtain ⟨w, hw⟩ := mapLookup_isSome_of_mem_keys hkwmem
      have hv : v = w := by
        rw [← h.1, show (mkKeywordMatcher entries).normalizedKeywordsMap =
          normalizeKeywordsMap entries from rfl, hw]
        rfl
      subst hv
      exact values_origin hw
  · rw [hp1] at h
    simp only [Option.some_inj, Prod.mk.injEq] at h
    have hkwmem := sortedKeywords_mem_keys (List.mem_of_find?_eq_some hp1)
    obtain ⟨w, hw⟩ := mapLookup_isSome_of_mem_keys hkwmem
    have hv : v = w := by
      rw [← h.1, show (mkKeywordMatcher entries).normalizedKeywordsMap =
        normalizeKeywordsMap entries from rfl, hw]
      rfl
    subst hv
    exact values_origin hw

/-- Every label the loop accumulates beyond its starting set is a label
of some dictionary entry. -/
theorem matchLoop_labels {entries : List (Str × KwVal)} :
    ∀ (fuel : Nat) (text : Str) (acc out : List String),
      KeywordMatcher.matchLoop (mkKeywordMatcher entries) fuel text acc = some out →
      ∀ s ∈ out, s ∈ acc ∨ ∃ p ∈ entries, s ∈ (p.2).labels := by
  intro fuel
  induction fuel with
  | zero =>
    intro text acc out h s hs
    cases text with
    | nil =>
      rw [matchLoop_nil] at h
      cases Option.some_inj.mp h
      exact Or.inl hs
    | cons c cs => exact absurd h (by rw [KeywordMatcher.matchLoop]; simp)
  | succ n ih =>
    intro text acc out h s hs
    cases text with
    | nil =>
      rw [matchLoop_nil] at h
      cases Option.some_inj.mp h
      exact Or.inl hs
    | cons c cs =>
      rw [matchLoop_succ_cons] at h
      rcases hm : (mkKeywordMatcher entries).findMatchAtStart (c :: cs) with _ | vr
      · rw [hm] at h
        exact ih _ _ _ h s hs
      · obtain ⟨v, rest⟩ := vr
        rw [hm] at h
        rcases ih _ _ _ h s hs with h1 | h1
        · rcases mem_addLabels_inv h1 with h2 | h2
          · exact Or.inl h2
          · obtain ⟨p, hp, hpv⟩ := findMatchAtStart_value_origin hm
            exact Or.inr ⟨p, hp, hpv ▸ h2⟩
        · exact Or.inr h1

theorem findKeywordsInPhrase_labels {entries : List (Str × KwVal)} {phrase : Str}
    {out : List String}
    (h : (mkKeywordMatcher entries).findKeywordsInPhrase phrase = some out) :
    ∀ s ∈ out, ∃ p ∈ entries, s ∈ (p.2).labels := by
  intro s hs
  rw [KeywordMatcher.findKeywordsInPhrase] at h
  rcases matchLoop_labels _ _ _ _ h s hs with h1 | h1
  · simp at h1
  · exact h1

theorem findKeywords_step_none {entries : List (Str × KwVal)} (phrases : List Str) :
    phrases.foldl
      (fun acc phrase =>
        match acc, (mkKeywordMatcher entries).findKeywordsInPhrase phrase with
        | some a, some m => some (m.foldl KeywordMatcher.addUnique a)
        | _, _ => none)
      none = none := by
  induction phrases with
  | nil => rfl
  | cons ph rest ih =>
    rw [List.foldl_cons]
    rw [show (match (none : Option (List String)),
        (mkKeywordMatcher entries).findKeywordsInPhrase ph with
      | some a, some m => some (m.foldl KeywordMatcher.addUnique a)
      | _, _ => none) = none by
        rcases (mkKeywordMatcher entries).findKeywordsInPhrase ph with _ | m <;> rfl]
    exact ih

theorem findKeywords_labels {entries : List (Str × KwVal)} {text : Str}
    {out : List String}
    (h : (mkKeywordMatcher entries).findKeywords text = some out) :
    ∀ s ∈ out, ∃ p ∈ entries, s ∈ (p.2).labels := by
  rw [KeywordMatcher.findKeywords] at h
  suffices haux : ∀ (phrases : List Str) (acc out : List String),
      phrases.foldl
        (fun acc phrase =>
          match acc, (mkKeywordMatcher entries).findKeywordsInPhrase phrase with
          | some a, some m => some (m.foldl KeywordMatcher.addUnique a)
          | _, _ => none)
        (some acc) = some out →
      ∀ s ∈ out, s ∈ acc ∨ ∃ p ∈ entries, s ∈ (p.2).labels by
    intro s hs
    rcases haux (splitOnComma text) [] out h s hs with h1 | h1
    · simp at h1
    · exact h1
  intro phrases
  induction phrases with
  | nil =>
    intro acc out h s hs
    rw [List.foldl_nil, Option.some_inj] at h
    exact Or.inl (h ▸ hs)
  | cons ph rest ih =>
    intro acc out h s hs
    rw [List.foldl_cons] at h
    rcases hph : (mkKeywordMatcher entries).findKeywordsInPhrase ph with _ | m
    · rw [hph] at h
      rw [findKeywords_step_none] at h
      exact absurd h (by simp)
    · rw [hph] at h
      rcases ih _ _ h s hs with h1 | h1
      · rcases mem_foldl_addUnique_inv h1 with h2 | h2
        · exact Or.inl h2
        · exact Or.inr (findKeywordsInPhrase_labels hph s h2)
      · exact Or.inr h1

theorem allKeywords_step_none {entries : List (Str × KwVal)} (ps : List PromptEntry) :
    ps.foldl
      (fun acc p =>
        match acc, (mkKeywordMatcher entries).findKeywords p.originalText with
        | some a, some k => some (a ++ k)
        | _, _ => none)
      none = none := by
  induction ps with
  | nil => rfl
  | cons q qs ihq =>
    rw [List.foldl_cons]
    rw [show (match (none : Option (List String)),
        (mkKeywordMatcher entries).findKeywords q.originalText with
      | some a, some k => some (a ++ k)
      | _, _ => none) = none by
        rcases (mkKeywordMatcher entries).findKeywords q.originalText with _ | k2 <;> rfl]
    exact ihq

theorem allKeywords_labels {entries : List (Str × KwVal)} {prompts : List PromptEntry}
    {out : List String}
    (h : allKeywords (mkKeywordMatcher entries) prompts = some out) :
    ∀ s ∈ out, ∃ p ∈ entries, s ∈ (p.2).labels := by
  rw [allKeywords] at h
  suffices haux : ∀ (ps : List PromptEntry) (acc out : List String),
      ps.foldl
        (fun acc p =>
          match acc, (mkKeywordMatcher entries).findKeywords p.originalText with
          | some a, some k => some (a ++ k)
          | _, _ => none)
        (some acc) = some out →
      ∀ s ∈ out, s ∈ acc ∨ ∃ p ∈ entries, s ∈ (p.2).labels by
    intro s hs
    rcases haux prompts [] out h s hs with h1 | h1
    · simp at h1
    · exact h1
  intro ps
  induction ps with
  | nil =>
    intro acc out h s hs
    rw [List.foldl_nil, Option.some_inj] at h
    exact Or.inl (h ▸ hs)
  | cons p0 rest ih =>
    intro acc out h s hs
    rw [List.foldl_cons] at h
    rcases hk : (mkKeywordMatcher entries).findKeywords p0.originalText with _ | k
    · rw [hk] at h
      rw [allKeywords_step_none] at h
      exact absurd h (by simp)
    · rw [hk] at h
      rcases ih _ _ h s hs with h1 | h1
      · rcases List.mem_append.mp h1 with h2 | h2
        · exact Or.inl h2
        · exact Or.inr (findKeywords_labels hk s h2)
      · exact Or.inr h1

/-- C8 (amended): on a successful job, the keyword list written to the
destination file has no duplicate labels — including with the watermark
feature on — provided no dictionary label equals the fixed watermark
label `"Watermark: AI"` that is pushed after deduplication. -/
theorem C8_keywords_nodup
    (entries : List (Str × KwVal)) (cfg : Bool) (o : PipeOracle)
    (filePath destDir : Str) (fs fs' : FS) (temps : List Str)
    (hwm : ∀ p ∈ entries, "Watermark: AI" ∉ (p.2).labels)
    (hrun : processFile entries cfg o filePath destDir fs = some (.ok true, fs', temps)) :
    ∃ d kws,
      fs'.lookupMeta (pathJoin destDir (baseName filePath)) = some (d, kws) ∧
      kws.Nodup := by
  rw [processFile] at hrun
  rcases hbody : processFileBody entries cfg o filePath destDir fs with _ | rft
  · rw [hbody] at hrun
    simp at hrun
  · obtain ⟨r, fs1, t1⟩ := rft
    rw [hbody] at hrun
    rcases r with e | b
    · simp at hrun
    · simp only [Option.some_inj, Prod.mk.injEq] at hrun
      obtain ⟨hb, hfs, htemps⟩ := hrun
      have hb2 : b = true := by
        cases b
        · simp at hb
        · rfl
      subst hb2
      obtain ⟨md, er, p0, rest, matched, hmd, her, hprompts, hmatched, hmeta⟩ :=
        processFileBody_ok_true_inv hbody
      refine ⟨p0.originalText, matched, ?_, ?_⟩
      · rw [← hfs, FS.lookupMeta, foldl_removeFile_fileMeta, hmeta]
        rw [List.find?_cons_of_pos _ (by simp)]
        rfl
      · rw [finalKeywords] at hmatched
        rcases hall : allKeywords (mkKeywordMatcher entries) er.prompts with _ | m
        · rw [hall] at hmatched
          simp at hmatched
        · rw [hall] at hmatched
          simp only [Option.map_some', Option.some_inj] at hmatched
          have hdedup : (dedupKeep m).Nodup := foldl_addUnique_nodup List.nodup_nil
          have hwmnot : "Watermark: AI" ∉ dedupKeep m := by
            intro hmem
            rcases mem_foldl_addUnique_inv hmem with h1 | h1
            · simp at h1
            · obtain ⟨p, hp, hlab⟩ := allKeywords_labels hall _ h1
              exact hwm p hp hlab
          rw [← hmatched]
          split
          · rw [List.nodup_append]
            exact ⟨hdedup, List.nodup_singleton _, by
              intro a ha hb2
              simp only [List.mem_singleton] at hb2
              subst hb2
              exact hwmnot ha⟩
          · exact hdedup

/-- Witness for C8: a successful watermarking job whose dictionary label
differs from the watermark label; the written keyword list has no
duplicates. -/
theorem C8_keywords_nodup_witness :
    ∃ d kws,
      FS.lookupMeta
        (((processFile [(chars "oak", .str "Tree: Oak")] true
            ⟨true, .ok ⟨some [⟨"parameters", chars "oak"⟩]⟩, true,
              chars "t/b.png", chars "t/w.png", true, true, true, true, false⟩
            (chars "in/img.png") (chars "out") ⟨[], []⟩).getD
          (.ok false, ⟨[], []⟩, [])).2.1)
        (pathJoin (chars "out") (baseName (chars "in/img.png"))) = some (d, kws) ∧
      kws.Nodup :=
  C8_keywords_nodup [(chars "oak", .str "Tree: Oak")] true
    ⟨true, .ok ⟨some [⟨"parameters", chars "oak"⟩]⟩, true,
      chars "t/b.png", chars "t/w.png", true, true, true, true, false⟩
    (chars "in/img.png") (chars "out") ⟨[], []⟩ _ _ (by decide) rfl

/-- Counterexample for C8 as stated: with a dictionary label equal to
the fixed watermark label and the watermark feature enabled, the written
keyword list is `["Watermark: AI", "Watermark: AI"]` — duplicates,
because fileProcessor.js deduplicates (line 92) before pushing the fixed
label (line 95). -/
theorem C8_counterexample :
    FS.lookupMeta
      (((processFile [(chars "foo", .str "Watermark: AI")] true
          ⟨true, .ok ⟨some [⟨"parameters", chars "foo"⟩]⟩, true,
            chars "t/b.png", chars "t/w.png", true, true, true, true, false⟩
          (chars "in/img.png") (chars "out") ⟨[], []⟩).getD
        (.ok false, ⟨[], []⟩, [])).2.1)
      (chars "out/img.png") = some (chars "foo", ["Watermark: AI", "Watermark: AI"]) ∧
    ¬ (["Watermark: AI", "Watermark: AI"] : List String).Nodup :=
  ⟨rfl, by decide⟩

/-- C9: for metadata whose first `"parameters"` comment has text `τ`,
the parameters strategy extracts exactly the trimmed text before the
literal marker `"Negative prompt:"` (the whole trimmed text when the
marker is absent) as the single prompt keyed `"primary"`, is a non-match
when that text is empty, and on a successful job the destination file's
description field equals that extracted text exactly. -/
theorem C9_parameters_prompt_and_description
    (md : Metadata) (cs : List MetaComment) (c : MetaComment)
    (hcm : md.comments = some cs)
    (hfind : cs.find? (fun c0 => c0.keyword = "parameters") = some c) :
    (parametersStrategy md =
      if positivePromptOf c = [] then .ok none
      else .ok (some [⟨"primary", positivePromptOf c⟩])) ∧
    (∀ (entries : List (Str × KwVal)) (cfg : Bool) (o : PipeOracle)
       (filePath destDir : Str) (fs fs' : FS) (temps : List Str),
      o.metadataResult = .ok md →
      positivePromptOf c ≠ [] →
      processFile entries cfg o filePath destDir fs = some (.ok true, fs', temps) →
      ∃ kws, fs'.lookupMeta (pathJoin destDir (baseName filePath)) =
        some (positivePromptOf c, kws)) := by
  have hstrat : parametersStrategy md =
      if positivePromptOf c = [] then .ok none
      else .ok (some [⟨"primary", positivePromptOf c⟩]) := by
    rw [parametersStrategy, hcm]
    simp only [hfind]
  refine ⟨hstrat, ?_⟩
  intro entries cfg o filePath destDir fs fs' temps hmd hpos hrun
  have hextract : extractPrompts md =
      some ⟨"parameters", [⟨"primary", positivePromptOf c⟩]⟩ := by
    rw [extractPrompts, strategies, extractPromptsGen, hstrat, if_neg hpos]
  rw [processFile] at hrun
  rcases hbody : processFileBody entries cfg o filePath destDir fs with _ | rft
  · rw [hbody] at hrun
    simp at hrun
  · obtain ⟨r, fs1, t1⟩ := rft
    rw [hbody] at hrun
    rcases r with e | b
    · simp at hrun
    · simp only [Option.some_inj, Prod.mk.injEq] at hrun
      obtain ⟨hb, hfs, htemps⟩ := hrun
      have hb2 : b = true := by
        cases b
        · simp at hb
        · rfl
      subst hb2
      obtain ⟨md2, er, p0, rest, matched, hmd2, her, hprompts, hmatched, hmeta⟩ :=
        processFileBody_ok_true_inv hbody
      have hmdeq : md2 = md := by
        rw [hmd] at hmd2
        exact (Except.ok.injEq _ _ ▸ hmd2).symm
      subst hmdeq
      rw [hextract] at her
      have hereq : er = ⟨"parameters", [⟨"primary", positivePromptOf c⟩]⟩ :=
        (Option.some_inj.mp her).symm
      subst hereq
      simp only at hprompts
      have hp0 : p0 = ⟨"primary", positivePromptOf c⟩ := by
        have := congrArg (fun l => l.head?) hprompts
        simpa using this.symm
      refine ⟨matched, ?_⟩
      rw [← hfs, FS.lookupMeta, foldl_removeFile_fileMeta, hmeta]
      rw [List.find?_cons_of_pos _ (by simp)]
      rw [hp0]
      rfl

/-- Witness for C9: the spec's end-to-end example.  The comment text
`"a red barn, oak tree\nNegative prompt: blurry"` extracts the prompt
`"a red barn, oak tree"`, which a successful job writes as the
description; the matched label set is `{"Tree: Oak"}`. -/
theorem C9_parameters_prompt_and_description_witness :
    parametersStrategy ⟨some [⟨"parameters",
        chars "a red barn, oak tree\nNegative prompt: blurry"⟩]⟩ =
      .ok (some [⟨"primary", chars "a red barn, oak tree"⟩]) ∧
    ∃ kws, FS.lookupMeta
        (((processFile [(chars "oak", .str "Tree: Oak")] false
            ⟨true, .ok ⟨some [⟨"parameters",
                chars "a red barn, oak tree\nNegative prompt: blurry"⟩]⟩, true,
              chars "t/b.png", chars "t/w.png", true, true, true, true, false⟩
            (chars "in/img.png") (chars "out") ⟨[], []⟩).getD
          (.ok false, ⟨[], []⟩, [])).2.1)
        (pathJoin (chars "out") (baseName (chars "in/img.png"))) =
      some (positivePromptOf ⟨"parameters",
        chars "a red barn, oak tree\nNegative prompt: blurry"⟩, kws) := by
  have h := C9_parameters_prompt_and_description
    ⟨some [⟨"parameters", chars "a red barn, oak tree\nNegative prompt: blurry"⟩]⟩
    [⟨"parameters", chars "a red barn, oak tree\nNegative prompt: blurry"⟩]
    ⟨"parameters", chars "a red barn, oak tree\nNegative prompt: blurry"⟩
    rfl rfl
  constructor
  · rw [h.1]
    rfl
  · exact h.2 [(chars "oak", .str "Tree: Oak")] false
      ⟨true, .ok ⟨some [⟨"parameters",
          chars "a red barn, oak tree\nNegative prompt: blurry"⟩]⟩, true,
        chars "t/b.png", chars "t/w.png", true, true, true, true, false⟩
      (chars "in/img.png") (chars "out") ⟨[], []⟩ _ _ rfl (by decide) rfl
